import Mathlib

/-!
Verification development for the `cvrp-aco-rs` repository: an ant-colony
optimizer for the capacitated vehicle routing problem.  The Rust source is
shallowly embedded below; `f64` values are modelled as exact rationals,
`usize` as `Nat`, panics (`unwrap`, `unreachable!`) as `Option.none`, the
uniform PRNG draw as an explicit parameter in `[0,1)`, and the two
source-level unbounded loops (the ant construction `while` loop and the
recursive 2-opt improvement) as structurally recursive functions on an
explicit fuel whose exhaustion yields the fallback indicated at each
definition.
-/

namespace Aco

/-- Dense square matrix of reals (source: `Matrix` in `problem/matrix.rs`,
backed by `Vec<f64>`), modelled with exact rationals and functional data. -/
structure Matrix where
  dimension : Nat
  data : Nat → Nat → ℚ

/-- Source: `Matrix::size`. -/
def Matrix.size (m : Matrix) : Nat := m.dimension

/-- Reading cell `(i, j)` (source: `m[i][j]`). -/
def Matrix.get (m : Matrix) (i j : Nat) : ℚ := m.data i j

/-- Writing cell `(i, j)` (source: `m[i][j] = v`). -/
def Matrix.set (m : Matrix) (i j : Nat) (v : ℚ) : Matrix :=
  ⟨m.dimension, fun a b => if a = i ∧ b = j then v else m.data a b⟩

/-- Source: `Matrix::update`. -/
def Matrix.update (m : Matrix) (i j : Nat) (f : ℚ → ℚ) : Matrix :=
  m.set i j (f (m.get i j))

/-- Source: `Matrix::new`, a zero-filled square matrix. -/
def Matrix.new (dimension : Nat) : Matrix := ⟨dimension, fun _ _ => 0⟩

/-- Source: `Matrix::filled_with` (every in-range cell set to `value`). -/
def Matrix.filled_with (dimension : Nat) (value : ℚ) : Matrix :=
  ⟨dimension, fun a b => if a < dimension ∧ b < dimension then value else 0⟩

/-- Source: `struct Ant` in `ant.rs`. -/
structure Ant where
  path_taken : List Nat
  path_cost : ℚ
  visited : List Bool
  visited_count : Nat
  num_nodes : Nat
  capacity : Nat
  cur_capacity : Nat
deriving DecidableEq

/-- Source: `Ant::new` (`visited[0] = true` presumes `num_nodes ≥ 1`). -/
def Ant.new (num_nodes capacity : Nat) : Ant :=
  { path_taken := [0]
    path_cost := 0
    visited := (List.replicate num_nodes false).set 0 true
    visited_count := 1
    num_nodes := num_nodes
    capacity := capacity
    cur_capacity := capacity }

/-- Source: `Ant::done`. -/
def Ant.done (a : Ant) : Bool := a.num_nodes == a.visited_count

/-- Source: `Ant::cur_node`; the source unwraps the last element, which the
program guarantees to exist (`path_taken` starts as `[0]` and only grows). -/
def Ant.cur_node (a : Ant) : Nat := a.path_taken.getLastD 0

/-- Source: `Ant::calc_edge_weight`, the savings–pheromone–attractiveness
product with the fixed exponents 9, 2 and 5. -/
def calc_edge_weight (savings pheromone distance_to_next : ℚ) : ℚ :=
  savings ^ 9 * pheromone ^ 2 * (1 / distance_to_next) ^ 5

/-- The per-candidate weight vector built by `Ant::find_next_node`: entry `i`
is `None` for visited nodes and the edge weight for unvisited ones.  The
source indexes `self.visited[i]` for `i` below the adjacency size; out of
range reads (absent from program runs) are treated as visited. -/
def Ant.distribution_vec (a : Ant) (adjacency_matrix pheromones : Matrix) :
    List (Option ℚ) :=
  (List.range adjacency_matrix.size).map (fun i =>
    if a.visited.getD i true then none
    else
      let cur := a.cur_node
      let savings := adjacency_matrix.get cur 0 + adjacency_matrix.get 0 i -
        adjacency_matrix.get cur i
      some (calc_edge_weight savings (pheromones.get cur i)
        (adjacency_matrix.get cur i)))

/-- The running total `total_edge_weight` accumulated in
`Ant::find_next_node`: the sum of the present entries. -/
def sumSomes : List (Option ℚ) → ℚ
  | [] => 0
  | none :: rest => sumSomes rest
  | some d :: rest => d + sumSomes rest

/-- The scan inside `Ant::get_next_node_by_probability`: walk the entries in
index order, accumulate present weights into `temp`, and return the first
index whose running sum satisfies the draw; the empty case is the
`unreachable!()` arm. The source divides by `ratio = 1 / total`, kept
literally here. -/
def selectFrom (rand total : ℚ) : Nat → ℚ → List (Option ℚ) → Option Nat
  | _, _, [] => none
  | i, temp, none :: rest => selectFrom rand total (i + 1) temp rest
  | i, temp, some d :: rest =>
    if rand / (1 / total) ≤ temp + d then some i
    else selectFrom rand total (i + 1) (temp + d) rest

/-- Source: `Ant::get_next_node_by_probability`, with the random draw made
an explicit argument. -/
def get_next_node_by_probability (rand : ℚ) (distribution_vec : List (Option ℚ))
    (total_edge_weight : ℚ) : Option Nat :=
  selectFrom rand total_edge_weight 0 0 distribution_vec

/-- Source: `Ant::find_next_node`; `none` models the `unreachable!()` panic
of the selection or the `nodes.get(next_node).unwrap()` panic. -/
def Ant.find_next_node (a : Ant) (adjacency_matrix pheromones : Matrix)
    (nodes : List Nat) (rand : ℚ) : Option Nat :=
  let distribution := a.distribution_vec adjacency_matrix pheromones
  let total := sumSomes distribution
  match get_next_node_by_probability rand distribution total with
  | none => none
  | some next_node =>
    match nodes.get? next_node with
    | none => none
    | some demand => some (if a.cur_capacity < demand then 0 else next_node)

/-- Source: `Ant::visit` (append the node, mark it at most once). -/
def Ant.visit (a : Ant) (idx : Nat) : Ant :=
  { a with
    path_taken := a.path_taken ++ [idx]
    visited := if a.visited.getD idx false then a.visited else a.visited.set idx true
    visited_count :=
      if a.visited.getD idx false then a.visited_count else a.visited_count + 1 }

/-- Source: `Ant::move_to_next`.  The depot refill, candidate search,
cost/capacity bookkeeping and visit happen in source order; the `usize`
subtraction of the demand never underflows on program runs (the capacity
override guards it), so `Nat` truncated subtraction is faithful there. -/
def Ant.move_to_next (a : Ant) (adjacency_matrix pheromones : Matrix)
    (nodes : List Nat) (rand : ℚ) : Option Ant :=
  let cur := a.cur_node
  let a1 := if cur = 0 then { a with cur_capacity := a.capacity } else a
  match a1.find_next_node adjacency_matrix pheromones nodes rand with
  | none => none
  | some next_node =>
    some (({ a1 with
      path_cost := a1.path_cost + adjacency_matrix.get cur next_node
      cur_capacity := a1.cur_capacity - nodes.getD next_node 0 }).visit next_node)

/-- Source: `Ant::complete` (close the tour back to the depot). -/
def Ant.complete (a : Ant) (adjacency_matrix : Matrix) : Ant :=
  ({ a with path_cost := a.path_cost + adjacency_matrix.get a.cur_node 0 }).visit 0

/-- Helper for `path_to_routes`: scan the remaining tour carrying the segment
opened by the last depot marker. -/
def routesFrom : List Nat → List Nat → List (List Nat)
  | cur, [] => [cur]
  | cur, 0 :: rest => cur :: routesFrom [] rest
  | cur, (i + 1) :: rest => routesFrom (cur ++ [i + 1]) rest

/-- Source: `path_to_routes` in `utils.rs`.  A tour whose first element is
not `0` makes the source push onto the last segment of an empty vector and
panic, modelled as `none`. -/
def path_to_routes (path : List Nat) : Option (List (List Nat)) :=
  match path with
  | [] => some []
  | 0 :: rest => some (routesFrom [] rest)
  | _ => none

/-- Source: `OptimizationStrategy::calc_path_length` (fold of the adjacency
entries over consecutive pairs). -/
def calc_path_length (adjacency_matrix : Matrix) : List Nat → ℚ
  | [] => 0
  | [_] => 0
  | i :: j :: rest => adjacency_matrix.get i j + calc_path_length adjacency_matrix (j :: rest)

/-- Source: `OptimizationStrategy::convert_to_multiple_paths`: split into
routes, bracket each with depot markers, drop the final segment.  Removing
at index `len - 1` of an empty vector panics, modelled as `none`. -/
def convert_to_multiple_paths (path : List Nat) : Option (List (List Nat)) :=
  match path_to_routes path with
  | none => none
  | some paths =>
    match paths.map (fun p => 0 :: p ++ [0]) with
    | [] => none
    | bracketed => some bracketed.dropLast

/-- Source: `TwoOptStrategy::swap`: keep `[0..=i]`, reverse `[i+1..=k]`,
keep `[k+1..]`. -/
def swap (path : List Nat) (i k : Nat) : List Nat :=
  path.take (i + 1) ++ ((path.drop (i + 1)).take (k - i)).reverse ++ path.drop (k + 1)

/-- Cost of the two edges removed by a candidate 2-opt move. -/
def removed_edge_cost (adjacency_matrix : Matrix) (path : List Nat) (i k : Nat) : ℚ :=
  adjacency_matrix.get (path.getD i 0) (path.getD (i + 1) 0) +
    adjacency_matrix.get (path.getD k 0) (path.getD (k + 1) 0)

/-- Cost of the two edges created by a candidate 2-opt move. -/
def new_edges_cost (adjacency_matrix : Matrix) (path : List Nat) (i k : Nat) : ℚ :=
  adjacency_matrix.get (path.getD i 0) (path.getD k 0) +
    adjacency_matrix.get (path.getD (i + 1) 0) (path.getD (k + 1) 0)

/-- The improvement test of `TwoOptStrategy::optimize_path`:
`removed_edge_cost - new_edges_cost > 1.0`. -/
def improves (adjacency_matrix : Matrix) (path : List Nat) (i k : Nat) : Bool :=
  if 1 < removed_edge_cost adjacency_matrix path i k -
      new_edges_cost adjacency_matrix path i k then true else false

/-- The scan order of `TwoOptStrategy::optimize_path`: the first pair
`(i, k)` with `i < len - 2`, `i + 1 ≤ k < len - 1` whose removed-minus-new
differential exceeds `1.0`. -/
def findSwap (adjacency_matrix : Matrix) (path : List Nat) : Option (Nat × Nat) :=
  (List.range (path.length - 2)).findSome? (fun i =>
    ((List.range' (i + 1) (path.length - 1 - (i + 1))).find?
      (improves adjacency_matrix path i)).map (fun k => (i, k)))

/-- Source: `TwoOptStrategy::optimize_path`.  The source recurses on the
swapped path at the first improving pair and returns the path once a full
scan finds none; the recursion depth is bounded by fuel, exhaustion
returning the current path unchanged. -/
def optimize_path (adjacency_matrix : Matrix) : Nat → List Nat → List Nat
  | 0, path => path
  | fuel + 1, path =>
    match findSwap adjacency_matrix path with
    | some (i, k) => optimize_path adjacency_matrix fuel (swap path i k)
    | none => path

/-- Source: `TwoOptStrategy::optimize`: split, 2-opt each route, rejoin
(`convert_to_single_path` is a flatten), recompute the length. -/
def TwoOptStrategy.optimize (fuel : Nat) (path : List Nat)
    (adjacency_matrix : Matrix) : Option (List Nat × ℚ) :=
  match convert_to_multiple_paths path with
  | none => none
  | some paths =>
    let new_path := (paths.map (optimize_path adjacency_matrix fuel)).flatten
    some (new_path, calc_path_length adjacency_matrix new_path)

/-- Source: `Ant::optimize_path` with the `TwoOptStrategy`. -/
def Ant.optimize_path (a : Ant) (adjacency_matrix : Matrix) (fuel : Nat) : Option Ant :=
  match TwoOptStrategy.optimize fuel a.path_taken adjacency_matrix with
  | none => none
  | some (path, cost) => some { a with path_taken := path, path_cost := cost }

/-- Source: `enum Continue` in `sim.rs`. -/
inductive Continue where
  | yes
  | no
deriving DecidableEq

/-- Source: `const MAX_CYCLES`. -/
def MAX_CYCLES : Nat := 150

/-- Source: `const BEST_TOUR_COST = f64::MAX`, as an exact rational. -/
def BEST_TOUR_COST : ℚ := 2 ^ 1024 - 2 ^ 971

/-- Source: `struct Problem` (the fields the core reads). -/
structure Problem where
  adjacency_matrix : Matrix
  demands : List Nat
  capacity : Nat

/-- Source: `struct Simulator`. -/
structure Simulator where
  adjacency_matrix : Matrix
  demands : List Nat
  capacity : Nat
  ants : List Ant
  pheromones : Matrix
  cur_cycle : Nat
  cycles_since_improvement : Nat
  best_tour_cost : ℚ
  best_tour : List Nat

/-- Source: `Simulator::init_pheromones` (strict upper-triangle loop writing
both orders of each off-diagonal pair). -/
def init_pheromones (n : Nat) : Matrix :=
  (List.range n).foldl (fun m i =>
    (List.range' (i + 1) (n - (i + 1))).foldl (fun m j => (m.set i j 1).set j i 1) m)
    (Matrix.new n)

/-- Source: `Simulator::num_nodes`. -/
def Simulator.num_nodes (st : Simulator) : Nat := st.adjacency_matrix.size

/-- Source: `Simulator::on`. -/
def Simulator.on (problem : Problem) : Simulator :=
  let num_nodes := problem.adjacency_matrix.size
  { adjacency_matrix := problem.adjacency_matrix
    demands := problem.demands
    capacity := problem.capacity
    ants := List.replicate num_nodes (Ant.new num_nodes problem.capacity)
    pheromones := init_pheromones num_nodes
    cur_cycle := 0
    cycles_since_improvement := 0
    best_tour_cost := BEST_TOUR_COST
    best_tour := [] }

/-- Source: `Simulator::reset_ants`. -/
def Simulator.reset_ants (st : Simulator) : Simulator :=
  { st with ants := List.replicate st.num_nodes (Ant.new st.num_nodes st.capacity) }

/-- The ant construction loop of `Simulator::update_ants`
(`while !ant.done() { ant.move_to_next(..) }`), consuming one random draw
per step from the stream `rnd`; fuel exhaustion is `none`, so a `some`
result certifies genuine loop exit. -/
def constructTour (adjacency_matrix pheromones : Matrix) (nodes : List Nat)
    (rnd : Nat → ℚ) : Nat → Nat → Ant → Option Ant
  | 0, _, _ => none
  | fuel + 1, step, a =>
    if a.done then some a
    else
      match a.move_to_next adjacency_matrix pheromones nodes (rnd step) with
      | none => none
      | some a1 => constructTour adjacency_matrix pheromones nodes rnd fuel (step + 1) a1

/-- One ant's share of `Simulator::update_ants`: construct, complete,
then 2-opt. -/
def processAnt (adjacency_matrix pheromones : Matrix) (nodes : List Nat)
    (rnd : Nat → ℚ) (fuel : Nat) (a : Ant) : Option Ant :=
  match constructTour adjacency_matrix pheromones nodes rnd fuel 0 a with
  | none => none
  | some a1 => (a1.complete adjacency_matrix).optimize_path adjacency_matrix fuel

/-- Source: `Simulator::update_ants`; ant `idx` draws from the stream
`rnds idx`. -/
def Simulator.update_ants (st : Simulator) (rnds : Nat → Nat → ℚ) (fuel : Nat) :
    Option Simulator :=
  match st.ants.enum.mapM (fun p =>
      processAnt st.adjacency_matrix st.pheromones st.demands (rnds p.1) fuel p.2) with
  | none => none
  | some ants1 => some { st with ants := ants1 }

/-- The loop body of the scan in `Simulator::try_find_best_tour`: the
accumulator carries `found_better`, the running `best_tour_cost` and the
running `best_tour`. -/
def bestScanStep (acc : Bool × ℚ × List Nat) (ant : Ant) : Bool × ℚ × List Nat :=
  if acc.2.1 > ant.path_cost then (true, ant.path_cost, ant.path_taken) else acc

/-- Source: `Simulator::try_find_best_tour`: scan the ants keeping a running
best, then either reset the stall counter or bump it and compare with
`MAX_CYCLES / 2`. -/
def Simulator.try_find_best_tour (st : Simulator) : Simulator × Continue :=
  let scan := st.ants.foldl bestScanStep (false, st.best_tour_cost, st.best_tour)
  if scan.1 then
    ({ st with
        best_tour_cost := scan.2.1
        best_tour := scan.2.2
        cycles_since_improvement := 0 }, Continue.yes)
  else
    let st1 := { st with
      best_tour_cost := scan.2.1
      best_tour := scan.2.2
      cycles_since_improvement := st.cycles_since_improvement + 1 }
    if st1.cycles_since_improvement > MAX_CYCLES / 2 then (st1, Continue.no)
    else (st1, Continue.yes)

/-- Source: `Simulator::evaporate`: the quality-coupled factor applied by the
full-square double loop, each iteration touching both `(i, j)` and `(j, i)`. -/
def Simulator.evaporate (st : Simulator) : Simulator :=
  let avg := (st.ants.map Ant.path_cost).sum / (st.ants.length : ℚ)
  let evaporation_factor := 0.5 + 80 / avg
  let pher1 :=
    (List.range st.num_nodes).foldl (fun m i =>
      (List.range st.num_nodes).foldl (fun m j =>
        (m.update i j (fun v => v * evaporation_factor)).update j i
          (fun v => v * evaporation_factor)) m)
      st.pheromones
  { st with pheromones := pher1 }

/-- The per-edge reinforcement loop of `Simulator::update_pheromones`:
`pheromones[u][v] += amount` along consecutive pairs of `path`. -/
def reinforcePath (m : Matrix) (path : List Nat) (amount : ℚ) : Matrix :=
  (path.zip path.tail).foldl (fun m uv => m.update uv.1 uv.2 (fun v => v + amount)) m

/-- Source: `Simulator::update_pheromones`: sort ants by cost, reinforce the
three best with `3 / cost`, `2 / cost`, `1 / cost` per directed edge.  The
`first().unwrap()` and `get(lambda).unwrap()` panics (fewer than three
ants) are `none`. -/
def Simulator.update_pheromones (st : Simulator) : Option Simulator :=
  let sorted := st.ants.mergeSort (fun a1 a2 => decide (a1.path_cost ≤ a2.path_cost))
  match sorted with
  | [] => none
  | star :: _ =>
    let m1 := reinforcePath st.pheromones star.path_taken (3 / star.path_cost)
    match sorted.get? 1, sorted.get? 2 with
    | some a1, some a2 =>
      let m2 := reinforcePath m1 a1.path_taken (2 / a1.path_cost)
      let m3 := reinforcePath m2 a2.path_taken (1 / a2.path_cost)
      some { st with ants := sorted, pheromones := m3 }
    | _, _ => none

/-- One iteration of the `run` loop body after the cycle check: reset,
update, best-tour bookkeeping, then (unless stopping) evaporation and
reinforcement. -/
def runCycleBody (st : Simulator) (rnds : Nat → Nat → ℚ) (fuel : Nat) :
    Option (Simulator × Continue) :=
  match (st.reset_ants).update_ants rnds fuel with
  | none => none
  | some st1 =>
    match st1.try_find_best_tour with
    | (st2, Continue.no) => some (st2, Continue.no)
    | (st2, Continue.yes) =>
      match (st2.evaporate).update_pheromones with
      | none => none
      | some st4 => some (st4, Continue.yes)

/-- Source: the `while self.should_continue()` loop of `Simulator::run`;
`should_continue` increments `cur_cycle` and compares with `MAX_CYCLES`.
Cycle `c` hands the stream `rnds c` to `update_ants`.  Loop fuel exhaustion
is `none`; fuel `MAX_CYCLES` is always sufficient. -/
def runLoop (rnds : Nat → Nat → Nat → ℚ) (antFuel : Nat) :
    Nat → Simulator → Option Simulator
  | 0, _ => none
  | fuel + 1, st =>
    let st1 := { st with cur_cycle := st.cur_cycle + 1 }
    if st1.cur_cycle < MAX_CYCLES then
      match runCycleBody st1 (rnds st1.cur_cycle) antFuel with
      | none => none
      | some (st2, Continue.yes) => runLoop rnds antFuel fuel st2
      | some (st2, Continue.no) => some st2
    else some st1

/-- Source: `Simulator::run` (the printing and timing are I/O only). -/
def Simulator.run (st : Simulator) (rnds : Nat → Nat → Nat → ℚ) (antFuel : Nat) :
    Option Simulator :=
  runLoop rnds antFuel MAX_CYCLES st

/-- Joining route segments back together with depot separators, the inverse
direction of the route-split round trip stated by the spec. -/
def joinRoutes : List (List Nat) → List Nat
  | [] => []
  | [r] => r
  | r :: rs => r ++ 0 :: joinRoutes rs

/-- A two-node instance: depot and one customer at distance 1. -/
def cAdj : Matrix := ⟨2, fun i j => if i = j then 0 else 1⟩

/-- Pheromones of the two-node instance. -/
def cPher : Matrix := Matrix.filled_with 2 1

/-- Demands of the two-node instance. -/
def cDemands : List Nat := [0, 1]

/-- A deterministic stream of draws, all zero. -/
def cRnd : Nat → ℚ := fun _ => 0

/-- The ant state after the single construction step on the two-node
instance. -/
def cAntDone : Ant :=
  { path_taken := [0, 1]
    path_cost := 1
    visited := [true, true]
    visited_count := 2
    num_nodes := 2
    capacity := 1
    cur_capacity := 0 }

/-- A simulator state used to evaluate `evaporate` concretely: two nodes,
one ant of cost 80, so the evaporation factor is `0.5 + 80 / 80 = 1.5`. -/
def evapState : Simulator :=
  { adjacency_matrix := cAdj
    demands := cDemands
    capacity := 1
    ants := [{ path_taken := [0, 1, 0]
               path_cost := 80
               visited := [true, true]
               visited_count := 2
               num_nodes := 2
               capacity := 1
               cur_capacity := 0 }]
    pheromones := Matrix.filled_with 2 1
    cur_cycle := 1
    cycles_since_improvement := 0
    best_tour_cost := 80
    best_tour := [0, 1, 0] }

/-!  Theorems.  -/

theorem Matrix.get_update (m : Matrix) (i j a b : Nat) (f : ℚ → ℚ) :
    (m.update i j f).get a b = if a = i ∧ b = j then f (m.get i j) else m.get a b := rfl

theorem evapStep_get (φ : ℚ) (m : Matrix) (i x a b : Nat) :
    ((m.update i x (fun v => v * φ)).update x i (fun v => v * φ)).get a b =
      m.get a b *
        φ ^ ((if a = i ∧ b = x then 1 else 0) + (if a = x ∧ b = i then 1 else 0)) := by
  simp only [Matrix.get_update]
  by_cases hax : a = x <;> by_cases hbi : b = i <;> by_cases hai : a = i <;>
    by_cases hbx : b = x <;> simp_all [pow_succ] <;> ring

theorem evapInner_get (φ : ℚ) (l : List Nat) (i a b : Nat) :
    ∀ m : Matrix,
      (l.foldl (fun m j =>
          (m.update i j (fun v => v * φ)).update j i (fun v => v * φ)) m).get a b =
        m.get a b *
          φ ^ ((if a = i then l.count b else 0) + (if b = i then l.count a else 0)) := by
  induction l with
  | nil => intro m; simp
  | cons x t ih =>
    intro m
    rw [List.foldl_cons, ih, evapStep_get]
    rw [mul_assoc, ← pow_add]
    congr 2
    simp only [List.count_cons, beq_iff_eq]
    split_ifs <;> omega

theorem evapOuter_get (φ : ℚ) (L l : List Nat) (a b : Nat) :
    ∀ m : Matrix,
      (L.foldl (fun m i => l.foldl (fun m j =>
          (m.update i j (fun v => v * φ)).update j i (fun v => v * φ)) m) m).get a b =
        m.get a b * φ ^ (L.count a * l.count b + L.count b * l.count a) := by
  induction L with
  | nil => intro m; simp
  | cons x t ih =>
    intro m
    rw [List.foldl_cons, ih, evapInner_get]
    rw [mul_assoc, ← pow_add]
    congr 2
    simp only [List.count_cons, beq_iff_eq]
    split_ifs <;> first | ring1 | (exfalso; omega)

theorem count_range_eq (a n : Nat) : (List.range n).count a = if a < n then 1 else 0 := by
  induction n with
  | zero => simp
  | succ k ih =>
    rw [List.range_succ, List.count_append, ih]
    simp only [List.count_singleton', beq_iff_eq]
    split_ifs <;> omega

/-- C1 (amended): one call to `evaporate` multiplies every pheromone cell by
the square of the factor `0.5 + 80 / avg`, because the full-square double
loop touches each cell once as `(i, j)` and once as `(j, i)`. -/
theorem evaporate_applies_factor_squared (st : Simulator) (i j : Nat)
    (hants : st.ants ≠ [])
    (havg : 0 < (st.ants.map Ant.path_cost).sum / (st.ants.length : ℚ))
    (hi : i < st.num_nodes) (hj : j < st.num_nodes) :
    st.evaporate.pheromones.get i j =
      (0.5 + 80 / ((st.ants.map Ant.path_cost).sum / (st.ants.length : ℚ))) ^ 2 *
        st.pheromones.get i j := by
  have h := evapOuter_get (0.5 + 80 / ((st.ants.map Ant.path_cost).sum / (st.ants.length : ℚ)))
    (List.range st.num_nodes) (List.range st.num_nodes) i j st.pheromones
  simp only [Simulator.evaporate]
  rw [h, count_range_eq, count_range_eq, if_pos hi, if_pos hj]
  ring

/-- C1, the claim as frozen is false: on `evapState` (one ant of cost 80,
so `avg = 80 > 0`), the pheromone cell `(0, 1)` holds `2.25` after
`evaporate`, not `φ · 1 = 1.5`. -/
theorem evaporate_not_single_factor :
    evapState.ants ≠ [] ∧
    0 < (evapState.ants.map Ant.path_cost).sum / (evapState.ants.length : ℚ) ∧
    evapState.evaporate.pheromones.get 0 1 ≠
      (0.5 + 80 / ((evapState.ants.map Ant.path_cost).sum / (evapState.ants.length : ℚ))) *
        evapState.pheromones.get 0 1 := by
  refine ⟨by simp [evapState], by norm_num [evapState], ?_⟩
  have h := evapOuter_get
    (0.5 + 80 / ((evapState.ants.map Ant.path_cost).sum / (evapState.ants.length : ℚ)))
    (List.range evapState.num_nodes) (List.range evapState.num_nodes) 0 1 evapState.pheromones
  simp only [Simulator.evaporate]
  rw [h, count_range_eq, count_range_eq]
  norm_num [evapState, Matrix.filled_with, Matrix.get, Simulator.num_nodes, Matrix.size, cAdj]

/-- Witness for C1 (amended) at `evapState`. -/
theorem evaporate_applies_factor_squared_witness :
    (evapState.ants ≠ [] ∧
      0 < (evapState.ants.map Ant.path_cost).sum / (evapState.ants.length : ℚ) ∧
      0 < evapState.num_nodes ∧ 1 < evapState.num_nodes) ∧
    evapState.evaporate.pheromones.get 0 1 =
      (0.5 + 80 / ((evapState.ants.map Ant.path_cost).sum / (evapState.ants.length : ℚ))) ^ 2 *
        evapState.pheromones.get 0 1 :=
  ⟨⟨by simp [evapState], by norm_num [evapState], by decide, by decide⟩,
    evaporate_applies_factor_squared evapState 0 1 (by simp [evapState])
      (by norm_num [evapState]) (by decide) (by decide)⟩

theorem routesFrom_ne_nil (rest : List Nat) : ∀ cur, routesFrom cur rest ≠ [] := by
  induction rest with
  | nil => intro cur; simp [routesFrom]
  | cons h t ih =>
    intro cur
    cases h with
    | zero => simp [routesFrom]
    | succ i => simpa [routesFrom] using ih (cur ++ [i + 1])

theorem joinRoutes_routesFrom (rest : List Nat) :
    ∀ cur, joinRoutes (routesFrom cur rest) = cur ++ rest := by
  induction rest with
  | nil => intro cur; simp [routesFrom, joinRoutes]
  | cons h t ih =>
    intro cur
    cases h with
    | zero =>
      rw [routesFrom]
      cases hr : routesFrom [] t with
      | nil => exact absurd hr (routesFrom_ne_nil t [])
      | cons r rs =>
        have : joinRoutes (cur :: r :: rs) = cur ++ 0 :: joinRoutes (r :: rs) := rfl
        rw [this, ← hr, ih]
        simp
    | succ i =>
      rw [routesFrom, ih]
      simp

/-- C6: splitting a depot-led tour into routes and joining the routes back
with depot separators recovers the tour exactly (hence in particular modulo
a trailing depot marker), and the concrete split of `[0,3,4,0,1,2,0]` is
`[[3,4],[1,2],[]]`. -/
theorem route_split_round_trip :
    (∀ rest : List Nat, ∃ rs, path_to_routes (0 :: rest) = some rs ∧
      0 :: joinRoutes rs = 0 :: rest) ∧
    path_to_routes [0, 3, 4, 0, 1, 2, 0] = some [[3, 4], [1, 2], []] := by
  refine ⟨fun rest => ⟨routesFrom [] rest, rfl, ?_⟩, by decide⟩
  rw [joinRoutes_routesFrom]
  rfl

theorem calc_path_length_append (adj : Matrix) (p : List Nat) (v : Nat) (hp : p ≠ []) :
    calc_path_length adj (p ++ [v]) =
      calc_path_length adj p + adj.get (p.getLastD 0) v := by
  induction p with
  | nil => simp at hp
  | cons x rest ih =>
    cases rest with
    | nil => simp [calc_path_length]
    | cons y t =>
      have h := ih (by simp)
      simp only [List.cons_append] at h ⊢
      rw [calc_path_length, h, calc_path_length]
      simp [List.getLastD]
      ring

theorem ite_refill_path_taken (P : Prop) [Decidable P] (a : Ant) (c : Nat) :
    (if P then { a with cur_capacity := c } else a).path_taken = a.path_taken := by
  split <;> rfl

theorem ite_refill_path_cost (P : Prop) [Decidable P] (a : Ant) (c : Nat) :
    (if P then { a with cur_capacity := c } else a).path_cost = a.path_cost := by
  split <;> rfl

theorem move_to_next_shape (adj pher : Matrix) (nodes : List Nat) (r : ℚ) (a b : Ant)
    (h : a.move_to_next adj pher nodes r = some b) :
    ∃ v, b.path_taken = a.path_taken ++ [v] ∧
      b.path_cost = a.path_cost + adj.get (a.path_taken.getLastD 0) v := by
  simp only [Ant.move_to_next] at h
  cases hf : ((if a.cur_node = 0 then { a with cur_capacity := a.capacity } else a).find_next_node
      adj pher nodes r) with
  | none => rw [hf] at h; exact absurd h (by simp)
  | some v =>
    rw [hf] at h
    simp only [Option.some.injEq] at h
    refine ⟨v, ?_, ?_⟩ <;> rw [← h] <;>
      simp [Ant.visit, ite_refill_path_taken, ite_refill_path_cost, Ant.cur_node]

theorem constructTour_cost (adj pher : Matrix) (nodes : List Nat) (rnd : Nat → ℚ) :
    ∀ (fuel step : Nat) (a b : Ant), a.path_taken ≠ [] →
      a.path_cost = calc_path_length adj a.path_taken →
      constructTour adj pher nodes rnd fuel step a = some b →
      b.path_taken ≠ [] ∧ b.path_cost = calc_path_length adj b.path_taken := by
  intro fuel
  induction fuel with
  | zero => intro step a b _ _ h; exact absurd h (by simp [constructTour])
  | succ n ih =>
    intro step a b hne hc h
    rw [constructTour] at h
    by_cases hd : a.done
    · rw [if_pos hd] at h
      cases h
      exact ⟨hne, hc⟩
    · rw [if_neg hd] at h
      cases hm : a.move_to_next adj pher nodes (rnd step) with
      | none => rw [hm] at h; exact absurd h (by simp)
      | some a1 =>
        rw [hm] at h
        obtain ⟨v, hp, hc1⟩ := move_to_next_shape adj pher nodes (rnd step) a a1 hm
        refine ih (step + 1) a1 b (by simp [hp]) ?_ h
        rw [hc1, hp, hc, calc_path_length_append adj _ v hne]

/-- C8: an ant that carries the cost of its path (as every program ant does
from construction on, which `constructTour_cost` propagates) has, right
after `complete`, a `path_cost` equal to the recomputed length of
`path_taken`, and `path_taken` ends with the depot. -/
theorem complete_cost_consistency (adj pher : Matrix) (nodes : List Nat)
    (rnd : Nat → ℚ) (fuel : Nat) (a b : Ant)
    (hne : a.path_taken ≠ [])
    (hcost : a.path_cost = calc_path_length adj a.path_taken)
    (hrun : constructTour adj pher nodes rnd fuel 0 a = some b) :
    (b.complete adj).path_cost = calc_path_length adj (b.complete adj).path_taken ∧
      (b.complete adj).path_taken.getLast? = some 0 := by
  obtain ⟨hbne, hbc⟩ := constructTour_cost adj pher nodes rnd fuel 0 a b hne hcost hrun
  have hpath : (b.complete adj).path_taken = b.path_taken ++ [0] := by
    simp [Ant.complete, Ant.visit]
  have hcost2 : (b.complete adj).path_cost =
      b.path_cost + adj.get (b.path_taken.getLastD 0) 0 := by
    simp [Ant.complete, Ant.visit, Ant.cur_node]
  refine ⟨?_, ?_⟩
  · rw [hcost2, hpath, hbc, calc_path_length_append adj _ 0 hbne]
  · rw [hpath]
    simp

/-- Witness for C8 on the two-node instance. -/
theorem complete_cost_consistency_witness :
    ((Ant.new 2 1).path_taken ≠ [] ∧
      (Ant.new 2 1).path_cost = calc_path_length cAdj (Ant.new 2 1).path_taken ∧
      constructTour cAdj cPher cDemands cRnd 3 0 (Ant.new 2 1) = some cAntDone) ∧
    ((cAntDone.complete cAdj).path_cost =
        calc_path_length cAdj (cAntDone.complete cAdj).path_taken ∧
      (cAntDone.complete cAdj).path_taken.getLast? = some 0) :=
  ⟨⟨by decide, by norm_num [Ant.new, calc_path_length], by
      norm_num [constructTour, Ant.move_to_next, Ant.find_next_node, Ant.distribution_vec,
        get_next_node_by_probability, selectFrom, sumSomes, calc_edge_weight, Ant.new,
        Ant.done, Ant.cur_node, Ant.visit, Matrix.get, Matrix.size, Matrix.filled_with,
        cAdj, cPher, cDemands, cRnd, cAntDone, List.range_succ,
        List.replicate_succ, List.set_cons_zero, List.set_cons_succ]⟩,
    complete_cost_consistency cAdj cPher cDemands cRnd 3 (Ant.new 2 1) cAntDone
      (by decide) (by norm_num [Ant.new, calc_path_length]) (by
      norm_num [constructTour, Ant.move_to_next, Ant.find_next_node, Ant.distribution_vec,
        get_next_node_by_probability, selectFrom, sumSomes, calc_edge_weight, Ant.new,
        Ant.done, Ant.cur_node, Ant.visit, Matrix.get, Matrix.size, Matrix.filled_with,
        cAdj, cPher, cDemands, cRnd, cAntDone, List.range_succ,
        List.replicate_succ, List.set_cons_zero, List.set_cons_succ])⟩

theorem foldl_min_le (l : List ℚ) : ∀ c0 : ℚ, l.foldl min c0 ≤ c0 := by
  induction l with
  | nil => intro c0; exact le_refl c0
  | cons x t ih =>
    intro c0
    calc (x :: t).foldl min c0 = t.foldl min (min c0 x) := by rw [List.foldl_cons]
    _ ≤ min c0 x := ih (min c0 x)
    _ ≤ c0 := min_le_left c0 x

theorem foldl_min_lt_iff (l : List ℚ) : ∀ c0 : ℚ, l.foldl min c0 < c0 ↔ ∃ x ∈ l, x < c0 := by
  induction l with
  | nil => intro c0; simp
  | cons x t ih =>
    intro c0
    rw [List.foldl_cons]
    by_cases hx : x < c0
    · constructor
      · intro _; exact ⟨x, List.mem_cons_self x t, hx⟩
      · intro _
        calc t.foldl min (min c0 x) ≤ min c0 x := foldl_min_le t (min c0 x)
        _ ≤ x := min_le_right c0 x
        _ < c0 := hx
    · have hcx : c0 ≤ x := not_lt.mp hx
      rw [min_eq_left hcx, ih c0]
      constructor
      · intro ⟨y, hy, hlt⟩; exact ⟨y, List.mem_cons_of_mem x hy, hlt⟩
      · intro ⟨y, hy, hlt⟩
        rcases List.mem_cons.mp hy with rfl | hy
        · exact absurd hlt hx
        · exact ⟨y, hy, hlt⟩

theorem foldl_min_attained (l : List ℚ) :
    ∀ c0 : ℚ, l.foldl min c0 = c0 ∨ l.foldl min c0 ∈ l := by
  induction l with
  | nil => intro c0; exact Or.inl rfl
  | cons x t ih =>
    intro c0
    rw [List.foldl_cons]
    rcases ih (min c0 x) with h | h
    · rw [h]
      rcases le_total c0 x with hc | hc
      · exact Or.inl (min_eq_left hc)
      · exact Or.inr (by rw [min_eq_right hc]; exact List.mem_cons_self x t)
    · exact Or.inr (List.mem_cons_of_mem x h)

theorem find_cost_attains (t : List Ant) (m : ℚ) :
    (∃ a ∈ t, a.path_cost = m) →
      ∃ b, t.find? (fun a => decide (a.path_cost = m)) = some b := by
  induction t with
  | nil => intro ⟨a, ha, _⟩; exact absurd ha (List.not_mem_nil a)
  | cons x t ih =>
    intro ⟨a, ha, hc⟩
    by_cases hx : x.path_cost = m
    · exact ⟨x, by rw [List.find?_cons, decide_eq_true hx]⟩
    · rcases List.mem_cons.mp ha with rfl | ha
      · exact absurd hc hx
      · obtain ⟨b, hb⟩ := ih ⟨a, ha, hc⟩
        exact ⟨b, by rw [List.find?_cons, decide_eq_false hx]; exact hb⟩

theorem bestScan_cost (l : List Ant) : ∀ (f0 : Bool) (c0 : ℚ) (t0 : List Nat),
    (l.foldl bestScanStep (f0, c0, t0)).2.1 = (l.map Ant.path_cost).foldl min c0 := by
  induction l with
  | nil => intros; rfl
  | cons a t ih =>
    intro f0 c0 t0
    rw [List.foldl_cons, List.map_cons, List.foldl_cons]
    by_cases h : c0 > a.path_cost
    · rw [show bestScanStep (f0, c0, t0) a = (true, a.path_cost, a.path_taken) by
        simp [bestScanStep, h]]
      rw [ih, min_eq_right h.le]
    · rw [show bestScanStep (f0, c0, t0) a = (f0, c0, t0) by simp [bestScanStep, h]]
      rw [ih, min_eq_left (not_lt.mp h)]

theorem bestScan_flag_stays (l : List Ant) : ∀ (c0 : ℚ) (t0 : List Nat),
    (l.foldl bestScanStep (true, c0, t0)).1 = true := by
  induction l with
  | nil => intros; rfl
  | cons a t ih =>
    intro c0 t0
    rw [List.foldl_cons]
    by_cases h : c0 > a.path_cost
    · rw [show bestScanStep (true, c0, t0) a = (true, a.path_cost, a.path_taken) by
        simp [bestScanStep, h]]
      exact ih _ _
    · rw [show bestScanStep (true, c0, t0) a = (true, c0, t0) by simp [bestScanStep, h]]
      exact ih _ _

theorem bestScan_flag (l : List Ant) : ∀ (c0 : ℚ) (t0 : List Nat),
    (l.foldl bestScanStep (false, c0, t0)).1 = true ↔ ∃ a ∈ l, a.path_cost < c0 := by
  induction l with
  | nil => intro c0 t0; simp
  | cons a t ih =>
    intro c0 t0
    rw [List.foldl_cons]
    by_cases h : c0 > a.path_cost
    · rw [show bestScanStep (false, c0, t0) a = (true, a.path_cost, a.path_taken) by
        simp [bestScanStep, h]]
      simp only [bestScan_flag_stays, true_iff]
      exact ⟨a, List.mem_cons_self a t, h⟩
    · rw [show bestScanStep (false, c0, t0) a = (false, c0, t0) by simp [bestScanStep, h]]
      rw [ih c0 t0]
      constructor
      · intro ⟨y, hy, hlt⟩; exact ⟨y, List.mem_cons_of_mem a hy, hlt⟩
      · intro ⟨y, hy, hlt⟩
        rcases List.mem_cons.mp hy with rfl | hy
        · exact absurd hlt (not_lt.mpr (not_lt.mp h))
        · exact ⟨y, hy, hlt⟩

theorem bestScan_tour (l : List Ant) : ∀ (f0 : Bool) (c0 : ℚ) (t0 : List Nat),
    (l.foldl bestScanStep (f0, c0, t0)).2.2 =
      if (l.map Ant.path_cost).foldl min c0 < c0 then
        ((l.find? (fun a => decide (a.path_cost = (l.map Ant.path_cost).foldl min c0))).map
          Ant.path_taken).getD t0
      else t0 := by
  induction l with
  | nil => intro f0 c0 t0; simp
  | cons a t ih =>
    intro f0 c0 t0
    rw [List.foldl_cons, List.map_cons, List.foldl_cons]
    by_cases h : c0 > a.path_cost
    · rw [show bestScanStep (f0, c0, t0) a = (true, a.path_cost, a.path_taken) by
        simp [bestScanStep, h], min_eq_right h.le]
      rw [ih true a.path_cost a.path_taken]
      have hm := foldl_min_le (t.map Ant.path_cost) a.path_cost
      have hmc : (t.map Ant.path_cost).foldl min a.path_cost < c0 := lt_of_le_of_lt hm h
      rw [if_pos hmc]
      by_cases hlt : (t.map Ant.path_cost).foldl min a.path_cost < a.path_cost
      · rw [if_pos hlt]
        have hne : ¬ a.path_cost = (t.map Ant.path_cost).foldl min a.path_cost :=
          fun he => absurd hlt (by rw [← he]; exact lt_irrefl _)
        simp only [List.find?_cons, decide_eq_false hne]
        rcases foldl_min_attained (t.map Ant.path_cost) a.path_cost with he | hmem
        · exact absurd hlt (by rw [he]; exact lt_irrefl _)
        · obtain ⟨b, hbmem, hbc⟩ := List.mem_map.mp hmem
          obtain ⟨b1, hb1⟩ := find_cost_attains t _ ⟨b, hbmem, hbc⟩
          rw [hb1]
          rfl
      · rw [if_neg hlt]
        have he : (t.map Ant.path_cost).foldl min a.path_cost = a.path_cost :=
          le_antisymm (foldl_min_le _ _) (not_lt.mp hlt)
        simp only [List.find?_cons, decide_eq_true (by rw [he] : a.path_cost =
          (t.map Ant.path_cost).foldl min a.path_cost)]
        rfl
    · rw [show bestScanStep (f0, c0, t0) a = (f0, c0, t0) by simp [bestScanStep, h],
        min_eq_left (not_lt.mp h)]
      rw [ih f0 c0 t0]
      by_cases hlt : (t.map Ant.path_cost).foldl min c0 < c0
      · rw [if_pos hlt, if_pos hlt]
        have hne : ¬ a.path_cost = (t.map Ant.path_cost).foldl min c0 := by
          intro he
          have : a.path_cost < c0 := by rw [he]; exact hlt
          exact h this
        simp only [List.find?_cons, decide_eq_false hne]
      · rw [if_neg hlt, if_neg hlt]

/-- C7: `try_find_best_tour` sets `best_tour_cost` to the minimum of its
previous value and all current ant costs, adopts the path of the first ant
attaining that minimum exactly when some ant is strictly better (an equal
cost causes no change), resets the stall counter and returns `Continue`
exactly on strict improvement, and otherwise bumps the counter, stopping
exactly when it exceeds `MAX_CYCLES / 2 = 75`, first reached after 76
consecutive non-improving cycles. -/
theorem try_find_best_tour_spec (st : Simulator) :
    st.try_find_best_tour.1.best_tour_cost =
      (st.ants.map Ant.path_cost).foldl min st.best_tour_cost ∧
    st.try_find_best_tour.1.best_tour_cost ≤ st.best_tour_cost ∧
    ((∃ a ∈ st.ants, a.path_cost < st.best_tour_cost) ↔
      st.try_find_best_tour.1.cycles_since_improvement = 0 ∧
        st.try_find_best_tour.2 = Continue.yes) ∧
    ((∃ a ∈ st.ants, a.path_cost < st.best_tour_cost) →
      st.try_find_best_tour.1.best_tour =
        ((st.ants.find? (fun a => decide (a.path_cost =
            (st.ants.map Ant.path_cost).foldl min st.best_tour_cost))).map
          Ant.path_taken).getD st.best_tour) ∧
    (¬ (∃ a ∈ st.ants, a.path_cost < st.best_tour_cost) →
      st.try_find_best_tour.1.best_tour = st.best_tour ∧
      st.try_find_best_tour.1.cycles_since_improvement =
        st.cycles_since_improvement + 1 ∧
      (st.try_find_best_tour.2 = Continue.no ↔
        st.cycles_since_improvement + 1 > MAX_CYCLES / 2)) := by
  have hcost := bestScan_cost st.ants false st.best_tour_cost st.best_tour
  have hflag := bestScan_flag st.ants st.best_tour_cost st.best_tour
  have htour := bestScan_tour st.ants false st.best_tour_cost st.best_tour
  have hle := foldl_min_le (st.ants.map Ant.path_cost) st.best_tour_cost
  have hltiff := foldl_min_lt_iff (st.ants.map Ant.path_cost) st.best_tour_cost
  have hmap : (∃ a ∈ st.ants, a.path_cost < st.best_tour_cost) ↔
      ∃ x ∈ st.ants.map Ant.path_cost, x < st.best_tour_cost := by
    constructor
    · intro ⟨a, ha, hc⟩; exact ⟨a.path_cost, List.mem_map_of_mem Ant.path_cost ha, hc⟩
    · intro ⟨x, hx, hc⟩
      obtain ⟨a, ha, rfl⟩ := List.mem_map.mp hx
      exact ⟨a, ha, hc⟩
  simp only [Simulator.try_find_best_tour]
  by_cases hf : (st.ants.foldl bestScanStep (false, st.best_tour_cost, st.best_tour)).1 = true
  · have himp : ∃ a ∈ st.ants, a.path_cost < st.best_tour_cost := hflag.mp hf
    have hmlt : (st.ants.map Ant.path_cost).foldl min st.best_tour_cost <
        st.best_tour_cost := hltiff.mpr (hmap.mp himp)
    rw [hf]
    simp only [if_true]
    refine ⟨hcost, hcost ▸ hle, ?_, ?_, ?_⟩
    · refine iff_of_true himp ⟨?_, ?_⟩ <;> trivial
    · intro _
      rw [htour, if_pos hmlt]
    · intro hno; exact absurd himp hno
  · have himp : ¬ ∃ a ∈ st.ants, a.path_cost < st.best_tour_cost := by
      intro hc; exact hf (hflag.mpr hc)
    have hnm : ¬ (st.ants.map Ant.path_cost).foldl min st.best_tour_cost <
        st.best_tour_cost := by
      intro hc; exact himp (hmap.mpr (hltiff.mp hc))
    rw [Bool.not_eq_true] at hf
    rw [hf]
    simp only [Bool.false_eq_true, if_false]
    constructor
    · split <;> exact hcost
    constructor
    · split <;> exact hcost ▸ hle
    constructor
    · constructor
      · intro hc; exact absurd hc himp
      · intro ⟨hc, _⟩
        exfalso
        revert hc
        split <;> simp
    constructor
    · intro hc; exact absurd hc himp
    · intro _
      refine ⟨?_, ?_, ?_⟩
      · have := htour
        rw [if_neg hnm] at this
        split <;> exact this
      · split <;> rfl
      · by_cases hstop : st.cycles_since_improvement + 1 > MAX_CYCLES / 2
        · rw [if_pos hstop]
          exact iff_of_true rfl hstop
        · rw [if_neg hstop]
          exact iff_of_false (by simp) hstop

/-- Witness for C7 at the concrete state `evapState`. -/
theorem try_find_best_tour_spec_witness :
    evapState.try_find_best_tour.1.best_tour_cost =
      (evapState.ants.map Ant.path_cost).foldl min evapState.best_tour_cost ∧
    evapState.try_find_best_tour.1.best_tour_cost ≤ evapState.best_tour_cost ∧
    ((∃ a ∈ evapState.ants, a.path_cost < evapState.best_tour_cost) ↔
      evapState.try_find_best_tour.1.cycles_since_improvement = 0 ∧
        evapState.try_find_best_tour.2 = Continue.yes) ∧
    ((∃ a ∈ evapState.ants, a.path_cost < evapState.best_tour_cost) →
      evapState.try_find_best_tour.1.best_tour =
        ((evapState.ants.find? (fun a => decide (a.path_cost =
            (evapState.ants.map Ant.path_cost).foldl min evapState.best_tour_cost))).map
          Ant.path_taken).getD evapState.best_tour) ∧
    (¬ (∃ a ∈ evapState.ants, a.path_cost < evapState.best_tour_cost) →
      evapState.try_find_best_tour.1.best_tour = evapState.best_tour ∧
      evapState.try_find_best_tour.1.cycles_since_improvement =
        evapState.cycles_since_improvement + 1 ∧
      (evapState.try_find_best_tour.2 = Continue.no ↔
        evapState.cycles_since_improvement + 1 > MAX_CYCLES / 2)) :=
  try_find_best_tour_spec evapState

theorem sumSomes_nonneg (l : List (Option ℚ)) (h : ∀ d, some d ∈ l → 0 ≤ d) :
    0 ≤ sumSomes l := by
  induction l with
  | nil => exact le_refl 0
  | cons x rest ih =>
    cases x with
    | none => exact ih (fun d hd => h d (List.mem_cons_of_mem none hd))
    | some d =>
      rw [show sumSomes (some d :: rest) = d + sumSomes rest from rfl]
      have h1 := h d (List.mem_cons_self _ _)
      have h2 := ih (fun d2 hd => h d2 (List.mem_cons_of_mem _ hd))
      linarith

theorem sumSomes_zero_all_zero (l : List (Option ℚ)) (hn : ∀ d, some d ∈ l → 0 ≤ d)
    (hz : sumSomes l = 0) : ∀ d, some d ∈ l → d = 0 := by
  induction l with
  | nil => intro d hd; exact absurd hd (List.not_mem_nil _)
  | cons x rest ih =>
    intro d hd
    cases x with
    | none =>
      rcases List.mem_cons.mp hd with h | h
      · exact absurd h (by simp)
      · exact ih (fun e he => hn e (List.mem_cons_of_mem _ he))
          (by simpa [sumSomes] using hz) d h
    | some e =>
      have hse : sumSomes (some e :: rest) = e + sumSomes rest := rfl
      have he0 : 0 ≤ e := hn e (List.mem_cons_self _ _)
      have hr0 : 0 ≤ sumSomes rest :=
        sumSomes_nonneg rest (fun d2 h2 => hn d2 (List.mem_cons_of_mem _ h2))
      have hrz : e = 0 ∧ sumSomes rest = 0 := by rw [hse] at hz; constructor <;> linarith
      rcases List.mem_cons.mp hd with h | h
      · rw [Option.some.injEq] at h; rw [h]; exact hrz.1
      · exact ih (fun e2 he => hn e2 (List.mem_cons_of_mem _ he)) hrz.2 d h

theorem sumSomes_eq_zero_of_no_some (l : List (Option ℚ)) (h : ¬∃ d, some d ∈ l) :
    sumSomes l = 0 := by
  induction l with
  | nil => rfl
  | cons x rest ih =>
    cases x with
    | none =>
      show sumSomes rest = 0
      exact ih (fun ⟨d, hd⟩ => h ⟨d, List.mem_cons_of_mem _ hd⟩)
    | some d => exact absurd ⟨d, List.mem_cons_self _ _⟩ h

theorem selectFrom_isSome (rand total : ℚ) :
    ∀ (l : List (Option ℚ)) (i : Nat) (temp : ℚ),
      (∃ d, some d ∈ l) →
      rand / (1 / total) ≤ temp + sumSomes l →
      ∃ j, selectFrom rand total i temp l = some j := by
  intro l
  induction l with
  | nil => intro i temp ⟨d, hd⟩ _; exact absurd hd (List.not_mem_nil _)
  | cons x rest ih =>
    intro i temp hex hle
    cases x with
    | none =>
      refine ih (i + 1) temp ?_ (by simpa [sumSomes] using hle)
      obtain ⟨d, hd⟩ := hex
      rcases List.mem_cons.mp hd with h | h
      · exact absurd h (by simp)
      · exact ⟨d, h⟩
    | some d =>
      show ∃ j, (if rand / (1 / total) ≤ temp + d then some i
        else selectFrom rand total (i + 1) (temp + d) rest) = some j
      by_cases hc : rand / (1 / total) ≤ temp + d
      · exact ⟨i, by rw [if_pos hc]⟩
      · rw [if_neg hc]
        have hsum : sumSomes (some d :: rest) = d + sumSomes rest := rfl
        by_cases hrest : ∃ d2, some d2 ∈ rest
        · exact ih (i + 1) (temp + d) hrest (by rw [hsum] at hle; linarith)
        · exfalso
          apply hc
          rw [hsum, sumSomes_eq_zero_of_no_some rest hrest] at hle
          linarith

theorem selectFrom_some_spec (rand total : ℚ) :
    ∀ (l : List (Option ℚ)) (i : Nat) (temp : ℚ) (j : Nat),
      selectFrom rand total i temp l = some j →
      ∃ k, j = i + k ∧ k < l.length ∧ (l.getD k none).isSome := by
  intro l
  induction l with
  | nil => intro i temp j h; exact absurd h (by simp [selectFrom])
  | cons x rest ih =>
    intro i temp j h
    cases x with
    | none =>
      obtain ⟨k, hk, hkl, hks⟩ := ih (i + 1) temp j h
      exact ⟨k + 1, by omega, by simpa using hkl, by simpa using hks⟩
    | some d =>
      rw [show selectFrom rand total i temp (some d :: rest) =
          (if rand / (1 / total) ≤ temp + d then some i
            else selectFrom rand total (i + 1) (temp + d) rest) from rfl] at h
      by_cases hc : rand / (1 / total) ≤ temp + d
      · rw [if_pos hc] at h
        cases h
        exact ⟨0, by omega, by simp, by simp⟩
      · rw [if_neg hc] at h
        obtain ⟨k, hk, hkl, hks⟩ := ih (i + 1) (temp + d) j h
        exact ⟨k + 1, by omega, by simpa using hkl, by simpa using hks⟩

theorem selectFrom_zero_first (rand : ℚ) (f : Nat → Option ℚ) :
    ∀ (k s : Nat), (∀ x d, x ∈ List.range' s k → f x = some d → d = 0) →
      selectFrom rand 0 s 0 ((List.range' s k).map f) =
        (List.range' s k).find? (fun x => (f x).isSome) := by
  intro k
  induction k with
  | zero => intro s _; rfl
  | succ n ih =>
    intro s hzero
    rw [List.range'_succ, List.map_cons, List.find?_cons]
    have hz1 : ∀ x d, x ∈ List.range' (s + 1) n → f x = some d → d = 0 := by
      intro x d hx hf
      refine hzero x d ?_ hf
      rw [List.range'_succ]
      exact List.mem_cons_of_mem s hx
    cases hfs : f s with
    | none =>
      show selectFrom rand 0 (s + 1) 0 ((List.range' (s + 1) n).map f) = _
      rw [ih (s + 1) hz1]
      rfl
    | some d =>
      have hd : d = 0 := hzero s d (by rw [List.range'_succ]; exact List.mem_cons_self _ _) hfs
      subst hd
      show (if rand / (1 / 0) ≤ 0 + 0 then some s
        else selectFrom rand 0 (s + 1) (0 + 0) ((List.range' (s + 1) n).map f)) = _
      rw [if_pos (by rw [div_zero, div_zero]; norm_num)]
      rfl

theorem find?_congr_own {α : Type} (p q : α → Bool) (h : ∀ x, p x = q x) :
    ∀ l : List α, l.find? p = l.find? q := by
  intro l
  induction l with
  | nil => rfl
  | cons x t ih => rw [List.find?_cons, List.find?_cons, h x, ih]

theorem distribution_vec_nonneg (a : Ant) (adj pher : Matrix)
    (hadj : ∀ u v, 0 ≤ adj.get u v)
    (htri : ∀ u v, adj.get u v ≤ adj.get u 0 + adj.get 0 v) :
    ∀ d, some d ∈ a.distribution_vec adj pher → 0 ≤ d := by
  intro d hd
  simp only [Ant.distribution_vec, List.mem_map] at hd
  obtain ⟨i, _, hfi⟩ := hd
  by_cases hv : a.visited.getD i true
  · rw [if_pos hv] at hfi; exact absurd hfi (by simp)
  · rw [if_neg hv] at hfi
    simp only [Option.some.injEq] at hfi
    rw [← hfi]
    have hs : 0 ≤ adj.get a.cur_node 0 + adj.get 0 i - adj.get a.cur_node i :=
      sub_nonneg.mpr (htri a.cur_node i)
    have h1 : 0 ≤ (adj.get a.cur_node 0 + adj.get 0 i - adj.get a.cur_node i) ^ 9 :=
      pow_nonneg hs 9
    have h2 : 0 ≤ pher.get a.cur_node i ^ 2 := sq_nonneg _
    have h3 : 0 ≤ (1 / adj.get a.cur_node i) ^ 5 :=
      pow_nonneg (one_div_nonneg.mpr (hadj a.cur_node i)) 5
    exact mul_nonneg (mul_nonneg h1 h2) h3

theorem distribution_vec_has_some (a : Ant) (adj pher : Matrix)
    (hex : ∃ i, i < adj.size ∧ a.visited.getD i true = false) :
    ∃ d, some d ∈ a.distribution_vec adj pher := by
  obtain ⟨i, hin, hnv⟩ := hex
  refine ⟨calc_edge_weight (adj.get a.cur_node 0 + adj.get 0 i - adj.get a.cur_node i)
    (pher.get a.cur_node i) (adj.get a.cur_node i), ?_⟩
  simp only [Ant.distribution_vec, List.mem_map]
  exact ⟨i, List.mem_range.mpr hin, by rw [if_neg (by rw [hnv]; simp)]⟩

/-- C9: with at least one unvisited node and a well-formed distance matrix
(nonnegative entries satisfying the depot triangle inequality, so that
every distribution weight is nonnegative), `get_next_node_by_probability`
returns an index for every draw in `[0,1)` — the `unreachable!()` arm is
never taken — and when the total edge weight is `0` it returns the first
unvisited index. -/
theorem get_next_node_never_unreachable (a : Ant) (adj pher : Matrix) (rand : ℚ)
    (hex : ∃ i, i < adj.size ∧ a.visited.getD i true = false)
    (hadj : ∀ u v, 0 ≤ adj.get u v)
    (htri : ∀ u v, adj.get u v ≤ adj.get u 0 + adj.get 0 v)
    (hr0 : 0 ≤ rand) (hr1 : rand < 1) :
    (∃ j, get_next_node_by_probability rand (a.distribution_vec adj pher)
        (sumSomes (a.distribution_vec adj pher)) = some j) ∧
    (sumSomes (a.distribution_vec adj pher) = 0 →
      get_next_node_by_probability rand (a.distribution_vec adj pher)
          (sumSomes (a.distribution_vec adj pher)) =
        (List.range adj.size).find? (fun i => ! a.visited.getD i true)) := by
  have hnn := distribution_vec_nonneg a adj pher hadj htri
  have hT : 0 ≤ sumSomes (a.distribution_vec adj pher) :=
    sumSomes_nonneg _ hnn
  constructor
  · apply selectFrom_isSome rand _ _ 0 0 (distribution_vec_has_some a adj pher hex)
    rw [div_div_eq_mul_div, div_one, zero_add]
    nlinarith [mul_nonneg (sub_nonneg.mpr hr1.le) hT]
  · intro hz
    have hzero : ∀ x d, x ∈ List.range' 0 adj.size →
        (fun i => if a.visited.getD i true then none
          else some (calc_edge_weight
            (adj.get a.cur_node 0 + adj.get 0 i - adj.get a.cur_node i)
            (pher.get a.cur_node i) (adj.get a.cur_node i))) x = some d → d = 0 := by
      intro x d hx hfx
      refine sumSomes_zero_all_zero _ hnn hz d ?_
      exact List.mem_map.mpr ⟨x, by rwa [← List.range_eq_range'] at hx, hfx⟩
    have hmain := selectFrom_zero_first rand
      (fun i => if a.visited.getD i true then none
        else some (calc_edge_weight
          (adj.get a.cur_node 0 + adj.get 0 i - adj.get a.cur_node i)
          (pher.get a.cur_node i) (adj.get a.cur_node i)))
      adj.size 0 hzero
    rw [hz]
    show selectFrom rand 0 0 0 (a.distribution_vec adj pher) = _
    have hdv : a.distribution_vec adj pher =
        (List.range' 0 adj.size).map
          (fun i => if a.visited.getD i true then none
            else some (calc_edge_weight
              (adj.get a.cur_node 0 + adj.get 0 i - adj.get a.cur_node i)
              (pher.get a.cur_node i) (adj.get a.cur_node i))) := by
      rw [← List.range_eq_range']
      rfl
    rw [hdv, hmain, ← List.range_eq_range']
    apply find?_congr_own
    intro x
    beta_reduce
    by_cases hvx : a.visited.getD x true
    · rw [if_pos hvx, hvx]
      rfl
    · have hfx : a.visited.getD x true = false := by
        revert hvx; cases a.visited.getD x true <;> simp
      rw [if_neg hvx, hfx]
      rfl

theorem cAdj_nonneg : ∀ u v, 0 ≤ cAdj.get u v := by
  intro u v
  simp only [cAdj, Matrix.get]
  split_ifs <;> norm_num

theorem cAdj_triangle : ∀ u v, cAdj.get u v ≤ cAdj.get u 0 + cAdj.get 0 v := by
  intro u v
  simp only [cAdj, Matrix.get]
  split_ifs <;> first | (exfalso; omega) | norm_num

/-- Witness for C9 on the two-node instance with draw `0`. -/
theorem get_next_node_never_unreachable_witness :
    ((∃ i, i < cAdj.size ∧ (Ant.new 2 1).visited.getD i true = false) ∧
      (0 : ℚ) ≤ 0 ∧ (0 : ℚ) < 1) ∧
    ((∃ j, get_next_node_by_probability 0 ((Ant.new 2 1).distribution_vec cAdj cPher)
        (sumSomes ((Ant.new 2 1).distribution_vec cAdj cPher)) = some j) ∧
      (sumSomes ((Ant.new 2 1).distribution_vec cAdj cPher) = 0 →
        get_next_node_by_probability 0 ((Ant.new 2 1).distribution_vec cAdj cPher)
            (sumSomes ((Ant.new 2 1).distribution_vec cAdj cPher)) =
          (List.range cAdj.size).find? (fun i => ! (Ant.new 2 1).visited.getD i true))) :=
  ⟨⟨⟨1, by decide, by decide⟩, by norm_num, by norm_num⟩,
    get_next_node_never_unreachable (Ant.new 2 1) cAdj cPher 0
      ⟨1, by decide, by decide⟩ cAdj_nonneg cAdj_triangle (by norm_num) (by norm_num)⟩


/-- A three-node instance whose depot self-loop has nonzero length. -/
def cAdj3 : Matrix := ⟨3, fun i j => if i = 0 ∧ j = 0 then 5 else 1⟩

theorem getLastD_irrel {α : Type} (l : List α) (h : l ≠ []) (d1 d2 : α) :
    l.getLastD d1 = l.getLastD d2 := by
  cases l with
  | nil => exact absurd rfl h
  | cons x t => rfl

theorem headD_append (X Y : List Nat) (hX : X ≠ []) :
    (X ++ Y).headD 0 = X.headD 0 := by
  cases X with
  | nil => exact absurd rfl hX
  | cons x t => rfl

theorem getLastD_cons_cons (x y : Nat) (t : List Nat) (d : Nat) :
    (x :: y :: t).getLastD d = (y :: t).getLastD d := rfl

theorem calc_path_length_append_both (adj : Matrix) :
    ∀ (X Y : List Nat), X ≠ [] → Y ≠ [] →
    calc_path_length adj (X ++ Y) =
      calc_path_length adj X + adj.get (X.getLastD 0) (Y.headD 0) +
        calc_path_length adj Y := by
  intro X
  induction X with
  | nil => intro Y h _; exact absurd rfl h
  | cons x xs ih =>
    intro Y _ hY
    cases xs with
    | nil =>
      cases Y with
      | nil => exact absurd rfl hY
      | cons y t =>
        show calc_path_length adj (x :: y :: t) =
          calc_path_length adj [x] + adj.get ([x].getLastD 0) ((y :: t).headD 0) +
            calc_path_length adj (y :: t)
        rw [show calc_path_length adj (x :: y :: t) =
          adj.get x y + calc_path_length adj (y :: t) from rfl]
        rw [show calc_path_length adj [x] = 0 from rfl]
        rw [show ([x].getLastD 0) = x from rfl, show ((y :: t).headD 0) = y from rfl]
        ring
    | cons x2 xs2 =>
      have h2 := ih Y (by simp) hY
      show calc_path_length adj (x :: x2 :: (xs2 ++ Y)) = _
      rw [calc_path_length]
      rw [show x2 :: (xs2 ++ Y) = (x2 :: xs2) ++ Y from rfl, h2]
      rw [show calc_path_length adj (x :: x2 :: xs2) =
        adj.get x x2 + calc_path_length adj (x2 :: xs2) from rfl]
      rw [getLastD_cons_cons]
      ring

theorem calc_path_length_reverse (adj : Matrix)
    (hsym : ∀ u v, adj.get u v = adj.get v u) :
    ∀ l : List Nat, calc_path_length adj l.reverse = calc_path_length adj l := by
  intro l
  induction l with
  | nil => rfl
  | cons b t ih =>
    cases t with
    | nil => rfl
    | cons y ys =>
      rw [List.reverse_cons]
      rw [calc_path_length_append_both adj (y :: ys).reverse [b] (by simp) (by simp)]
      rw [ih]
      rw [show calc_path_length adj [b] = 0 from rfl]
      rw [show ([b] : List Nat).headD 0 = b from rfl]
      have hrev : ((y :: ys).reverse).getLastD 0 = y := by
        rw [List.getLastD_eq_getLast?, List.getLast?_reverse]
        rfl
      rw [hrev]
      rw [show calc_path_length adj (b :: y :: ys) =
        adj.get b y + calc_path_length adj (y :: ys) from rfl]
      rw [hsym y b]
      ring

theorem calc_path_length_nonneg (adj : Matrix) (hadj : ∀ u v, 0 ≤ adj.get u v) :
    ∀ l : List Nat, 0 ≤ calc_path_length adj l := by
  intro l
  induction l with
  | nil => exact le_refl 0
  | cons x t ih =>
    cases t with
    | nil => exact le_refl 0
    | cons y ys =>
      rw [show calc_path_length adj (x :: y :: ys) =
        adj.get x y + calc_path_length adj (y :: ys) from rfl]
      have := hadj x y
      linarith

theorem getD_eq_getElem? (l : List Nat) (n : Nat) :
    l.getD n 0 = l[n]?.getD 0 := List.getD_eq_getElem?_getD l n 0

theorem headD_eq_getElem? (l : List Nat) : l.headD 0 = l[0]?.getD 0 := by
  rw [List.headD_eq_head?_getD, List.head?_eq_getElem?]

theorem getLastD_eq_getElem? (l : List Nat) :
    l.getLastD 0 = l[l.length - 1]?.getD 0 := by
  rw [List.getLastD_eq_getLast?, List.getLast?_eq_getElem?]

theorem take_getLastD (p : List Nat) (i : Nat) (h : i < p.length) :
    (p.take (i + 1)).getLastD 0 = p.getD i 0 := by
  rw [getLastD_eq_getElem?, getD_eq_getElem?]
  have hlen : (p.take (i + 1)).length = i + 1 := by
    rw [List.length_take]
    omega
  rw [hlen]
  rw [show i + 1 - 1 = i from rfl]
  rw [List.getElem?_take_of_lt (by omega)]

theorem drop_headD (p : List Nat) (n : Nat) :
    (p.drop n).headD 0 = p.getD n 0 := by
  rw [headD_eq_getElem?, getD_eq_getElem?, List.getElem?_drop]
  simp

theorem middle_headD (p : List Nat) (i k : Nat) (hik : i < k) :
    ((p.drop (i + 1)).take (k - i)).headD 0 = p.getD (i + 1) 0 := by
  rw [headD_eq_getElem?, getD_eq_getElem?]
  rw [List.getElem?_take_of_lt (by omega), List.getElem?_drop]

theorem middle_getLastD (p : List Nat) (i k : Nat) (hik : i < k) (hk : k < p.length) :
    ((p.drop (i + 1)).take (k - i)).getLastD 0 = p.getD k 0 := by
  rw [getLastD_eq_getElem?, getD_eq_getElem?]
  have hlen : ((p.drop (i + 1)).take (k - i)).length = k - i := by
    rw [List.length_take, List.length_drop]
    omega
  rw [hlen]
  rw [List.getElem?_take_of_lt (by omega), List.getElem?_drop]
  congr 2
  omega

theorem middle_ne_nil (p : List Nat) (i k : Nat) (hik : i < k) (hk : k < p.length) :
    (p.drop (i + 1)).take (k - i) ≠ [] := by
  have : ((p.drop (i + 1)).take (k - i)).length = k - i := by
    rw [List.length_take, List.length_drop]
    omega
  intro hnil
  rw [hnil] at this
  simp at this
  omega

theorem p_decomp (p : List Nat) (i k : Nat) (hik : i ≤ k) :
    p.take (i + 1) ++ ((p.drop (i + 1)).take (k - i) ++ p.drop (k + 1)) = p := by
  have h1 : (p.drop (i + 1)).take (k - i) ++ (p.drop (i + 1)).drop (k - i) =
      p.drop (i + 1) := List.take_append_drop _ _
  have h2 : (p.drop (i + 1)).drop (k - i) = p.drop (k + 1) := by
    rw [List.drop_drop]
    congr 1
    omega
  rw [h2] at h1
  rw [h1]
  exact List.take_append_drop _ _

theorem calc_swap (adj : Matrix) (hsym : ∀ u v, adj.get u v = adj.get v u)
    (p : List Nat) (i k : Nat) (hik : i < k) (hk : k + 1 < p.length) :
    calc_path_length adj (swap p i k) =
      calc_path_length adj p - removed_edge_cost adj p i k +
        new_edges_cost adj p i k := by
  have hA : p.take (i + 1) ≠ [] := by
    have : (p.take (i + 1)).length = i + 1 := by rw [List.length_take]; omega
    intro hnil
    rw [hnil] at this
    simp at this
  have hB := middle_ne_nil p i k hik (by omega)
  have hC : p.drop (k + 1) ≠ [] := by
    have : (p.drop (k + 1)).length = p.length - (k + 1) := List.length_drop _ _
    intro hnil
    rw [hnil] at this
    simp at this
    omega
  have hBC : (p.drop (i + 1)).take (k - i) ++ p.drop (k + 1) ≠ [] := by
    intro hnil
    rcases List.append_eq_nil.mp hnil with ⟨h1, _⟩
    exact hB h1
  have hBrevC : ((p.drop (i + 1)).take (k - i)).reverse ++ p.drop (k + 1) ≠ [] := by
    intro hnil
    rcases List.append_eq_nil.mp hnil with ⟨h1, _⟩
    exact hB (by simpa using h1)
  have hp : calc_path_length adj p =
      calc_path_length adj (p.take (i + 1)) +
        adj.get ((p.take (i + 1)).getLastD 0)
          (((p.drop (i + 1)).take (k - i)).headD 0) +
        (calc_path_length adj ((p.drop (i + 1)).take (k - i)) +
          adj.get (((p.drop (i + 1)).take (k - i)).getLastD 0)
            ((p.drop (k + 1)).headD 0) +
          calc_path_length adj (p.drop (k + 1))) := by
    conv_lhs => rw [← p_decomp p i k hik.le]
    rw [calc_path_length_append_both adj _ _ hA hBC]
    rw [headD_append _ _ hB]
    rw [calc_path_length_append_both adj _ _ hB hC]
  have hs : calc_path_length adj (swap p i k) =
      calc_path_length adj (p.take (i + 1)) +
        adj.get ((p.take (i + 1)).getLastD 0)
          (((p.drop (i + 1)).take (k - i)).getLastD 0) +
        (calc_path_length adj ((p.drop (i + 1)).take (k - i)) +
          adj.get (((p.drop (i + 1)).take (k - i)).headD 0)
            ((p.drop (k + 1)).headD 0) +
          calc_path_length adj (p.drop (k + 1))) := by
    rw [show swap p i k = p.take (i + 1) ++
      (((p.drop (i + 1)).take (k - i)).reverse ++ p.drop (k + 1)) by
        rw [swap, List.append_assoc]]
    rw [calc_path_length_append_both adj _ _ hA hBrevC]
    rw [headD_append _ _ (by simpa using hB)]
    rw [calc_path_length_append_both adj _ _ (by simpa using hB) hC]
    rw [calc_path_length_reverse adj hsym]
    have hh : (((p.drop (i + 1)).take (k - i)).reverse).headD 0 =
        ((p.drop (i + 1)).take (k - i)).getLastD 0 := by
      rw [List.headD_eq_head?_getD, List.head?_reverse, List.getLastD_eq_getLast?]
    have hl : (((p.drop (i + 1)).take (k - i)).reverse).getLastD 0 =
        ((p.drop (i + 1)).take (k - i)).headD 0 := by
      rw [List.getLastD_eq_getLast?, List.getLast?_reverse, List.headD_eq_head?_getD]
    rw [hh, hl]
  rw [hp, hs]
  rw [take_getLastD p i (by omega), middle_headD p i k hik,
    middle_getLastD p i k hik (by omega), drop_headD]
  rw [removed_edge_cost, new_edges_cost]
  ring

theorem improves_eq_true (adj : Matrix) (p : List Nat) (i k : Nat) :
    improves adj p i k = true ↔
      1 < removed_edge_cost adj p i k - new_edges_cost adj p i k := by
  rw [improves]
  split <;> simp_all

theorem findSome?_some_spec {α β : Type} (f : α → Option β) :
    ∀ (l : List α) (b : β), l.findSome? f = some b → ∃ a ∈ l, f a = some b := by
  intro l
  induction l with
  | nil => intro b h; exact absurd h (by simp)
  | cons x t ih =>
    intro b h
    rw [List.findSome?_cons] at h
    cases hfx : f x with
    | some c =>
      rw [hfx] at h
      exact ⟨x, List.mem_cons_self _ _, by rw [hfx]; exact h⟩
    | none =>
      rw [hfx] at h
      obtain ⟨a, ha, hfa⟩ := ih b h
      exact ⟨a, List.mem_cons_of_mem _ ha, hfa⟩

theorem mem_range'_bounds (m s n : Nat) (h : m ∈ List.range' s n) :
    s ≤ m ∧ m < s + n := by
  induction n generalizing s with
  | zero => exact absurd h (by simp)
  | succ k ih =>
    rw [List.range'_succ] at h
    rcases List.mem_cons.mp h with rfl | h
    · omega
    · have := ih (s + 1) h
      omega

theorem findSwap_some (adj : Matrix) (p : List Nat) (i k : Nat)
    (h : findSwap adj p = some (i, k)) :
    i < k ∧ k + 1 < p.length ∧
      1 < removed_edge_cost adj p i k - new_edges_cost adj p i k := by
  rw [findSwap] at h
  obtain ⟨i0, hi0mem, hfi0⟩ := findSome?_some_spec _ _ _ h
  cases hft : (List.range' (i0 + 1) (p.length - 1 - (i0 + 1))).find?
      (improves adj p i0) with
  | none => rw [hft] at hfi0; exact absurd hfi0 (by simp)
  | some k0 =>
    rw [hft] at hfi0
    simp only [Option.map_some', Option.some.injEq, Prod.mk.injEq] at hfi0
    obtain ⟨rfl, rfl⟩ := hfi0
    have hibound : i0 < p.length - 2 := List.mem_range.mp hi0mem
    have hkmem := List.mem_of_find?_eq_some hft
    have hkb := mem_range'_bounds _ _ _ hkmem
    have himp := List.find?_some hft
    refine ⟨by omega, by omega, (improves_eq_true adj p i0 k0).mp himp⟩

theorem swap_perm (p : List Nat) (i k : Nat) (hik : i ≤ k) : (swap p i k).Perm p := by
  conv_rhs => rw [← p_decomp p i k hik]
  rw [swap, List.append_assoc]
  exact List.Perm.append_left _ (List.Perm.append_right _ (List.reverse_perm _))

theorem swap_head? (p : List Nat) (i k : Nat) : (swap p i k).head? = p.head? := by
  cases p with
  | nil => simp [swap]
  | cons x t => rfl

theorem getLast?_append_right (X Y : List Nat) (hY : Y ≠ []) :
    (X ++ Y).getLast? = Y.getLast? := by
  rw [List.getLast?_eq_head?_reverse, List.reverse_append]
  cases hYr : Y.reverse with
  | nil => exact absurd (by simpa using hYr) hY
  | cons y t =>
    rw [List.getLast?_eq_head?_reverse, hYr]
    rfl

theorem drop_getLast? (p : List Nat) (n : Nat) (h : n < p.length) :
    (p.drop n).getLast? = p.getLast? := by
  rw [List.getLast?_eq_getElem?, List.getLast?_eq_getElem?, List.length_drop,
    List.getElem?_drop]
  congr 1
  omega

theorem swap_getLast? (p : List Nat) (i k : Nat) (hk : k + 1 < p.length) :
    (swap p i k).getLast? = p.getLast? := by
  rw [swap, List.append_assoc]
  have hC : p.drop (k + 1) ≠ [] := by
    have hlen : (p.drop (k + 1)).length = p.length - (k + 1) := List.length_drop _ _
    intro hnil
    rw [hnil] at hlen
    simp at hlen
    omega
  rw [getLast?_append_right _ _ (by
    intro hnil
    rcases List.append_eq_nil.mp hnil with ⟨_, h2⟩
    exact hC h2)]
  rw [getLast?_append_right _ _ hC]
  exact drop_getLast? p (k + 1) hk

theorem optimize_path_spec (adj : Matrix) :
    ∀ (fuel : Nat) (p : List Nat),
      (optimize_path adj fuel p).Perm p ∧
      (optimize_path adj fuel p).head? = p.head? ∧
      (optimize_path adj fuel p).getLast? = p.getLast? := by
  intro fuel
  induction fuel with
  | zero => intro p; exact ⟨List.Perm.refl _, rfl, rfl⟩
  | succ n ih =>
    intro p
    rw [optimize_path]
    cases hfs : findSwap adj p with
    | none => exact ⟨List.Perm.refl _, rfl, rfl⟩
    | some ik =>
      obtain ⟨i, k⟩ := ik
      obtain ⟨hik, hk, _⟩ := findSwap_some adj p i k hfs
      obtain ⟨ihp, ihh, ihl⟩ := ih (swap p i k)
      exact ⟨ihp.trans (swap_perm p i k hik.le),
        ihh.trans (swap_head? p i k),
        ihl.trans (swap_getLast? p i k hk)⟩

theorem optimize_path_calc_le (adj : Matrix)
    (hsym : ∀ u v, adj.get u v = adj.get v u) :
    ∀ (fuel : Nat) (p : List Nat),
      calc_path_length adj (optimize_path adj fuel p) ≤ calc_path_length adj p := by
  intro fuel
  induction fuel with
  | zero => intro p; exact le_refl _
  | succ n ih =>
    intro p
    rw [optimize_path]
    cases hfs : findSwap adj p with
    | none => exact le_refl _
    | some ik =>
      obtain ⟨i, k⟩ := ik
      obtain ⟨hik, hk, himp⟩ := findSwap_some adj p i k hfs
      have hsw := calc_swap adj hsym p i k hik hk
      have := ih (swap p i k)
      rw [hsw] at this
      linarith

theorem map_dropLast {α β : Type} (f : α → β) :
    ∀ l : List α, (l.dropLast).map f = (l.map f).dropLast := by
  intro l
  induction l with
  | nil => rfl
  | cons x t ih =>
    cases t with
    | nil => rfl
    | cons y s =>
      show f x :: ((y :: s).dropLast).map f = (f x :: (y :: s).map f).dropLast
      rw [ih]
      rfl

theorem convert_blocks (rest : List Nat) :
    convert_to_multiple_paths (0 :: rest) =
      some ((routesFrom [] rest).map (fun r => 0 :: r ++ [0])).dropLast := by
  rw [convert_to_multiple_paths]
  show (match (routesFrom [] rest).map (fun p => 0 :: p ++ [0]) with
    | [] => none
    | bracketed => some bracketed.dropLast) = _
  cases hm : (routesFrom [] rest).map (fun p => 0 :: p ++ [0]) with
  | nil => exact absurd (List.map_eq_nil_iff.mp hm) (routesFrom_ne_nil rest [])
  | cons b bs => rfl

theorem calc_zero_join (adj : Matrix) :
    ∀ routes : List (List Nat), routes ≠ [] →
      calc_path_length adj (0 :: joinRoutes routes) =
        ((routes.dropLast).map (fun r => calc_path_length adj (0 :: r ++ [0]))).sum +
          calc_path_length adj (0 :: routes.getLastD []) := by
  intro routes
  induction routes with
  | nil => intro h; exact absurd rfl h
  | cons r rs ih =>
    intro _
    cases rs with
    | nil => simp [joinRoutes]
    | cons r2 rs2 =>
      rw [show joinRoutes (r :: r2 :: rs2) = r ++ 0 :: joinRoutes (r2 :: rs2) from rfl]
      rw [show (0 : Nat) :: (r ++ 0 :: joinRoutes (r2 :: rs2)) =
        (0 :: r) ++ (0 :: joinRoutes (r2 :: rs2)) by simp]
      rw [calc_path_length_append_both adj (0 :: r) (0 :: joinRoutes (r2 :: rs2))
        (by simp) (by simp)]
      rw [ih (by simp)]
      have hb : calc_path_length adj (0 :: r ++ [0]) =
          calc_path_length adj (0 :: r) + adj.get ((0 :: r).getLastD 0) 0 := by
        rw [show (0 : Nat) :: r ++ [0] = (0 :: r) ++ [0] from rfl]
        rw [calc_path_length_append adj (0 :: r) 0 (by simp)]
      rw [show (r :: r2 :: rs2).dropLast = r :: (r2 :: rs2).dropLast from rfl]
      rw [show (r :: r2 :: rs2).getLastD [] = (r2 :: rs2).getLastD r from rfl]
      rw [getLastD_irrel (r2 :: rs2) (by simp) r []]
      rw [List.map_cons, List.sum_cons, hb]
      rw [show ((0 : Nat) :: joinRoutes (r2 :: rs2)).headD 0 = 0 from rfl]
      ring

theorem calc_flatten (adj : Matrix) (hdiag0 : adj.get 0 0 = 0) :
    ∀ bs : List (List Nat),
      (∀ b ∈ bs, b.head? = some 0 ∧ b.getLast? = some 0) →
      calc_path_length adj bs.flatten = (bs.map (calc_path_length adj)).sum ∧
        (bs ≠ [] → bs.flatten.headD 0 = 0 ∧ bs.flatten ≠ []) := by
  intro bs
  induction bs with
  | nil => intro _; exact ⟨rfl, fun h => absurd rfl h⟩
  | cons b bs2 ih =>
    intro hall
    have hb := hall b (List.mem_cons_self _ _)
    have hbne : b ≠ [] := by
      intro hnil
      rw [hnil] at hb
      exact absurd hb.1 (by simp)
    obtain ⟨ihc, ihh⟩ := ih (fun x hx => hall x (List.mem_cons_of_mem _ hx))
    have hhead : (b :: bs2).flatten.headD 0 = 0 ∧ (b :: bs2).flatten ≠ [] := by
      rw [show (b :: bs2).flatten = b ++ bs2.flatten from rfl]
      constructor
      · rw [headD_append _ _ hbne, List.headD_eq_head?_getD, hb.1]
        rfl
      · intro hnil
        rcases List.append_eq_nil.mp hnil with ⟨h1, _⟩
        exact hbne h1
    refine ⟨?_, fun _ => hhead⟩
    by_cases hbs : bs2 = []
    · subst hbs
      show calc_path_length adj (b ++ List.flatten []) = _
      rw [show List.flatten ([] : List (List Nat)) = [] from rfl, List.append_nil]
      simp
    · obtain ⟨hfh, hfne⟩ := ihh hbs
      show calc_path_length adj (b ++ bs2.flatten) = _
      rw [calc_path_length_append_both adj b bs2.flatten hbne hfne]
      rw [ihc]
      have hzero : adj.get (b.getLastD 0) (bs2.flatten.headD 0) = 0 := by
        rw [hfh, List.getLastD_eq_getLast?, hb.2]
        exact hdiag0
      rw [hzero, List.map_cons, List.sum_cons]
      ring

theorem sum_le_sum_map {α : Type} (f g : α → ℚ) :
    ∀ l : List α, (∀ x ∈ l, f x ≤ g x) → (l.map f).sum ≤ (l.map g).sum := by
  intro l
  induction l with
  | nil => intro _; exact le_refl 0
  | cons x t ih =>
    intro h
    rw [List.map_cons, List.map_cons, List.sum_cons, List.sum_cons]
    have h1 := h x (List.mem_cons_self _ _)
    have h2 := ih (fun y hy => h y (List.mem_cons_of_mem _ hy))
    linarith

/-- C2 (amended): for a symmetric adjacency with zero depot self-distance
and nonnegative entries, and any input path starting at the depot, the
2-opt optimized path's recomputed length never exceeds the input's
recomputed length (for every recursion budget). -/
theorem two_opt_non_degradation (adj : Matrix)
    (hsym : ∀ u v, adj.get u v = adj.get v u)
    (hdiag0 : adj.get 0 0 = 0)
    (hadj : ∀ u v, 0 ≤ adj.get u v)
    (rest : List Nat) (fuel : Nat) :
    ∃ out : List Nat,
      TwoOptStrategy.optimize fuel (0 :: rest) adj =
        some (out, calc_path_length adj out) ∧
      calc_path_length adj out ≤ calc_path_length adj (0 :: rest) := by
  rw [TwoOptStrategy.optimize, convert_blocks]
  refine ⟨_, rfl, ?_⟩
  rw [← map_dropLast, List.map_map]
  have hprops : ∀ b ∈ ((routesFrom [] rest).dropLast).map
      ((optimize_path adj fuel) ∘ (fun r => 0 :: r ++ [0])),
      b.head? = some 0 ∧ b.getLast? = some 0 := by
    intro b hbm
    obtain ⟨r, _, hbr⟩ := List.mem_map.mp hbm
    obtain ⟨_, hh, hl⟩ := optimize_path_spec adj fuel (0 :: r ++ [0])
    rw [← hbr]
    constructor
    · rw [Function.comp_apply, hh]
      rfl
    · rw [Function.comp_apply, hl]
      rw [show (0 : Nat) :: r ++ [0] = (0 :: r) ++ [0] from rfl]
      exact List.getLast?_concat _
  obtain ⟨hcalc, _⟩ := calc_flatten adj hdiag0 _ hprops
  rw [hcalc]
  have hsum : ((((routesFrom [] rest).dropLast).map
      ((optimize_path adj fuel) ∘ (fun r => 0 :: r ++ [0]))).map
        (calc_path_length adj)).sum ≤
      (((routesFrom [] rest).dropLast).map
        (fun r => calc_path_length adj (0 :: r ++ [0]))).sum := by
    rw [List.map_map]
    apply sum_le_sum_map
    intro r _
    rw [Function.comp_apply, Function.comp_apply]
    exact optimize_path_calc_le adj hsym fuel (0 :: r ++ [0])
  have hp : calc_path_length adj (0 :: rest) =
      (((routesFrom [] rest).dropLast).map
        (fun r => calc_path_length adj (0 :: r ++ [0]))).sum +
        calc_path_length adj (0 :: (routesFrom [] rest).getLastD []) := by
    conv_lhs => rw [show rest = joinRoutes (routesFrom [] rest) by
      rw [joinRoutes_routesFrom]; rfl]
    exact calc_zero_join adj _ (routesFrom_ne_nil rest [])
  have hnn := calc_path_length_nonneg adj hadj
    (0 :: (routesFrom [] rest).getLastD [])
  rw [hp]
  linarith

/-- C2, the claim as frozen is false: with a nonzero depot self-distance
the rejoined tour gains a `0,0` edge, so on `[0,1,0,2,0]` over `cAdj3` the
optimized path recomputes to `9` while the input recomputes to `4`. -/
theorem two_opt_can_degrade :
    TwoOptStrategy.optimize 5 [0, 1, 0, 2, 0] cAdj3 = some ([0, 1, 0, 0, 2, 0], 9) ∧
    calc_path_length cAdj3 [0, 1, 0, 2, 0] = 4 ∧
    ¬ ((9 : ℚ) ≤ 4) := by
  refine ⟨?_, ?_, by norm_num⟩
  · norm_num [TwoOptStrategy.optimize, convert_to_multiple_paths, path_to_routes,
      routesFrom, optimize_path, findSwap, improves, removed_edge_cost, new_edges_cost,
      cAdj3, Matrix.get, calc_path_length, List.range_succ, List.range']
  · norm_num [calc_path_length, cAdj3, Matrix.get]

theorem cAdj_symm : ∀ u v, cAdj.get u v = cAdj.get v u := by
  intro u v
  simp only [cAdj, Matrix.get]
  split_ifs <;> first | rfl | (exfalso; omega)

/-- Witness for C2 (amended) on the two-node instance with path `[0,1,0]`. -/
theorem two_opt_non_degradation_witness :
    ((∀ u v, cAdj.get u v = cAdj.get v u) ∧ cAdj.get 0 0 = 0 ∧
      (∀ u v, 0 ≤ cAdj.get u v)) ∧
    (∃ out : List Nat,
      TwoOptStrategy.optimize 4 (0 :: [1, 0]) cAdj =
        some (out, calc_path_length cAdj out) ∧
      calc_path_length cAdj out ≤ calc_path_length cAdj (0 :: [1, 0])) :=
  ⟨⟨cAdj_symm, by norm_num [cAdj, Matrix.get], cAdj_nonneg⟩,
    two_opt_non_degradation cAdj cAdj_symm (by norm_num [cAdj, Matrix.get])
      cAdj_nonneg [1, 0] 4⟩

theorem optimize_eq (path : List Nat) (adj : Matrix) (fuel : Nat)
    (bs : List (List Nat)) (h : convert_to_multiple_paths path = some bs) :
    TwoOptStrategy.optimize fuel path adj =
      some ((bs.map (optimize_path adj fuel)).flatten,
        calc_path_length adj ((bs.map (optimize_path adj fuel)).flatten)) := by
  rw [TwoOptStrategy.optimize, h]

theorem forall₂_map_self {α β : Type} (P : β → α → Prop) (g : α → β) :
    ∀ l : List α, (∀ x ∈ l, P (g x) x) → List.Forall₂ P (l.map g) l := by
  intro l
  induction l with
  | nil => intro _; exact List.Forall₂.nil
  | cons x t ih =>
    intro h
    exact List.Forall₂.cons (h x (List.mem_cons_self _ _))
      (ih (fun y hy => h y (List.mem_cons_of_mem _ hy)))

theorem forall₂_perm_length_sum :
    ∀ (l1 l2 : List (List Nat)), List.Forall₂ (fun cs r => cs.Perm r) l1 l2 →
      (l1.map List.length).sum = (l2.map List.length).sum := by
  intro l1 l2 h
  induction h with
  | nil => rfl
  | cons hp _ ih =>
    rw [List.map_cons, List.map_cons, List.sum_cons, List.sum_cons, hp.length_eq, ih]

theorem sum_length_bracket :
    ∀ l : List (List Nat),
      ((l.map (fun cs => (0 : Nat) :: cs ++ [0])).map List.length).sum =
        (l.map List.length).sum + 2 * l.length := by
  intro l
  induction l with
  | nil => rfl
  | cons cs t ih =>
    simp only [List.map_cons, List.sum_cons, List.length_cons, List.length_append,
      List.length_cons, List.length_nil] at *
    omega

theorem joinRoutes_length :
    ∀ routes : List (List Nat), routes ≠ [] →
      (joinRoutes routes).length + 1 = (routes.map List.length).sum + routes.length := by
  intro routes
  induction routes with
  | nil => intro h; exact absurd rfl h
  | cons r rs ih =>
    intro _
    cases rs with
    | nil => simp [joinRoutes]
    | cons r2 rs2 =>
      rw [show joinRoutes (r :: r2 :: rs2) = r ++ 0 :: joinRoutes (r2 :: rs2) from rfl]
      have h2 := ih (by simp)
      simp only [List.length_append, List.length_cons, List.map_cons, List.sum_cons] at *
      omega

theorem getLastD_cons_of_ne_nil {α : Type} (a : α) (l : List α) (h : l ≠ []) (d : α) :
    (a :: l).getLastD d = l.getLastD d := by
  cases l with
  | nil => exact absurd rfl h
  | cons b t => rfl

theorem routes_split_last (routes : List (List Nat)) (h : routes ≠ []) :
    routes = routes.dropLast ++ [routes.getLastD []] := by
  conv_lhs => rw [← List.dropLast_concat_getLast h]
  congr 2
  rw [List.getLastD_eq_getLast?, List.getLast?_eq_getLast _ h]
  rfl

theorem routesFrom_getLast_of_end_zero :
    ∀ (rest : List Nat) (cur : List Nat), rest.getLast? = some 0 →
      (routesFrom cur rest).getLastD [] = [] := by
  intro rest
  induction rest with
  | nil => intro cur h; exact absurd h (by simp)
  | cons x t ih =>
    intro cur h
    cases ht : t with
    | nil =>
      subst ht
      have hx : x = 0 := by simpa using h
      subst hx
      rfl
    | cons y s =>
      have htl : t.getLast? = some 0 := by
        rw [ht]
        rw [ht] at h
        rwa [List.getLast?_cons_cons] at h
      rw [← ht]
      cases x with
      | zero =>
        show (cur :: routesFrom [] t).getLastD [] = []
        rw [getLastD_cons_of_ne_nil cur (routesFrom [] t) (routesFrom_ne_nil t []) []]
        exact ih [] htl
      | succ i =>
        show (routesFrom (cur ++ [i + 1]) t).getLastD [] = []
        exact ih (cur ++ [i + 1]) htl

theorem block_structure (b : List Nat) (hh : b.head? = some 0)
    (hl : b.getLast? = some 0) (hlen : 2 ≤ b.length) :
    b = 0 :: ((b.drop 1).dropLast ++ [0]) := by
  cases b with
  | nil => exact absurd hh (by simp)
  | cons x t =>
    have hx : x = 0 := by simpa using hh
    subst hx
    have htne : t ≠ [] := by
      intro hnil
      rw [hnil] at hlen
      simp at hlen
    show (0 : Nat) :: t = 0 :: (((0 :: t).drop 1).dropLast ++ [0])
    rw [show ((0 : Nat) :: t).drop 1 = t from rfl]
    congr 1
    have hlt : t.getLast? = some 0 := by
      cases t with
      | nil => exact absurd rfl htne
      | cons y s => rwa [List.getLast?_cons_cons] at hl
    have hgl : t.getLast htne = 0 := by
      rw [List.getLast?_eq_getLast _ htne] at hlt
      simpa using hlt
    conv_lhs => rw [← List.dropLast_concat_getLast htne]
    rw [hgl]

/-- The shared block-form of the 2-opt output: on a depot-led tour the
optimizer returns the flattened bracketed blocks of cores that permute the
input routes (minus the final segment), priced at the recomputed length. -/
theorem optimize_block_form (adj : Matrix) (rest : List Nat) (fuel : Nat) :
    ∃ rs' : List (List Nat),
      TwoOptStrategy.optimize fuel (0 :: rest) adj =
        some ((rs'.map (fun cs => 0 :: cs ++ [0])).flatten,
          calc_path_length adj ((rs'.map (fun cs => 0 :: cs ++ [0])).flatten)) ∧
      List.Forall₂ (fun cs r => cs.Perm r) rs' ((routesFrom [] rest).dropLast) := by
  have hgprops : ∀ r : List Nat,
      (optimize_path adj fuel (0 :: r ++ [0])).Perm (0 :: r ++ [0]) ∧
      (optimize_path adj fuel (0 :: r ++ [0])).head? = some 0 ∧
      (optimize_path adj fuel (0 :: r ++ [0])).getLast? = some 0 := by
    intro r
    obtain ⟨hp, hh, hl⟩ := optimize_path_spec adj fuel (0 :: r ++ [0])
    refine ⟨hp, by rw [hh]; rfl, ?_⟩
    rw [hl, show (0 : Nat) :: r ++ [0] = (0 :: r) ++ [0] from rfl]
    exact List.getLast?_concat _
  have hblock : ∀ r : List Nat, optimize_path adj fuel (0 :: r ++ [0]) =
      0 :: ((((optimize_path adj fuel (0 :: r ++ [0])).drop 1).dropLast) ++ [0]) := by
    intro r
    obtain ⟨hp, hh, hl⟩ := hgprops r
    refine block_structure _ hh hl ?_
    rw [hp.length_eq]
    simp
  have hperm : ∀ r : List Nat,
      (((optimize_path adj fuel (0 :: r ++ [0])).drop 1).dropLast).Perm r := by
    intro r
    obtain ⟨hp, _, _⟩ := hgprops r
    have h1 := hblock r
    rw [h1] at hp
    have h2 : ((((optimize_path adj fuel (0 :: r ++ [0])).drop 1).dropLast) ++ [0]).Perm
        (r ++ [0]) := hp.cons_inv
    have h3 := (List.perm_append_singleton 0
      (((optimize_path adj fuel (0 :: r ++ [0])).drop 1).dropLast)).symm
    have h4 := List.perm_append_singleton 0 r
    exact ((h3.trans h2).trans h4).cons_inv
  have hopt : TwoOptStrategy.optimize fuel (0 :: rest) adj =
      some (((((routesFrom [] rest).dropLast).map
        (fun r => ((optimize_path adj fuel (0 :: r ++ [0])).drop 1).dropLast)).map
          (fun cs => 0 :: cs ++ [0])).flatten,
        calc_path_length adj (((((routesFrom [] rest).dropLast).map
          (fun r => ((optimize_path adj fuel (0 :: r ++ [0])).drop 1).dropLast)).map
            (fun cs => 0 :: cs ++ [0])).flatten)) := by
    have hmeq : ((routesFrom [] rest).dropLast).map
        ((optimize_path adj fuel) ∘ (fun r => 0 :: r ++ [0])) =
        ((routesFrom [] rest).dropLast).map
          ((fun cs => 0 :: cs ++ [0]) ∘
            (fun r => ((optimize_path adj fuel (0 :: r ++ [0])).drop 1).dropLast)) := by
      apply List.map_congr_left
      intro r _
      rw [Function.comp_apply, Function.comp_apply]
      exact hblock r
    have hopt0 := optimize_eq (0 :: rest) adj fuel _ (convert_blocks rest)
    rw [← map_dropLast, List.map_map, hmeq, ← List.map_map] at hopt0
    exact hopt0
  exact ⟨((routesFrom [] rest).dropLast).map
    (fun r => ((optimize_path adj fuel (0 :: r ++ [0])).drop 1).dropLast), hopt,
    forall₂_map_self _ _ _ (fun r _ => hperm r)⟩

/-- C10: on a tour starting and ending at the depot without consecutive
depot markers, the 2-opt output is the concatenation of per-route blocks
`[0, c1, …, ck, 0]` whose customers are a permutation of the corresponding
input route (so a doubled depot marker separates adjacent routes), and its
length is the input length plus the number of routes minus one. -/
theorem two_opt_block_structure (adj : Matrix) (rest : List Nat) (fuel : Nat)
    (hend : (0 :: rest).getLast? = some 0)
    (hsep : List.Chain' (fun a b => ¬(a = 0 ∧ b = 0)) (0 :: rest)) :
    ∃ (rs' : List (List Nat)) (c : ℚ),
      TwoOptStrategy.optimize fuel (0 :: rest) adj =
        some ((rs'.map (fun cs => 0 :: cs ++ [0])).flatten, c) ∧
      List.Forall₂ (fun cs r => cs.Perm r) rs' ((routesFrom [] rest).dropLast) ∧
      ((rs'.map (fun cs => 0 :: cs ++ [0])).flatten).length =
        (0 :: rest).length + ((routesFrom [] rest).dropLast).length - 1 := by
  obtain ⟨rs', hopt, hf2⟩ := optimize_block_form adj rest fuel
  refine ⟨rs', _, hopt, hf2, ?_⟩
  · have hsums := forall₂_perm_length_sum _ _ hf2
    have hflat : ((rs'.map (fun cs => (0 : Nat) :: cs ++ [0])).flatten).length =
        (rs'.map List.length).sum + 2 * rs'.length := by
      rw [List.length_flatten]
      rw [sum_length_bracket]
    have hlen2 : rs'.length = ((routesFrom [] rest).dropLast).length :=
      List.Forall₂.length_eq hf2
    rw [hflat, hsums, hlen2]
    have hrl : rest.getLast? = some 0 ∨ rest = [] := by
      cases rest with
      | nil => exact Or.inr rfl
      | cons y s =>
        left
        rwa [List.getLast?_cons_cons] at hend
    have hlast0 : (routesFrom [] rest).getLastD [] = [] := by
      rcases hrl with h | h
      · exact routesFrom_getLast_of_end_zero rest [] h
      · subst h; rfl
    have hjl := joinRoutes_length (routesFrom [] rest) (routesFrom_ne_nil rest [])
    rw [joinRoutes_routesFrom rest []] at hjl
    have hsplit := routes_split_last (routesFrom [] rest) (routesFrom_ne_nil rest [])
    rw [hlast0] at hsplit
    have hsum_all : ((routesFrom [] rest).map List.length).sum =
        (((routesFrom [] rest).dropLast).map List.length).sum := by
      conv_lhs => rw [hsplit]
      rw [List.map_append, List.sum_append]
      simp
    have hlen_all : (routesFrom [] rest).length =
        ((routesFrom [] rest).dropLast).length + 1 := by
      conv_lhs => rw [hsplit]
      rw [List.length_append]
      simp
    rw [hsum_all, hlen_all] at hjl
    simp only [List.length_map, List.length_cons, List.nil_append] at *
    omega

/-- Witness for C10 at the tour `[0,1,0]` over the two-node instance. -/
theorem two_opt_block_structure_witness :
    (((0 : Nat) :: [1, 0]).getLast? = some 0 ∧
      List.Chain' (fun a b => ¬(a = 0 ∧ b = 0)) ((0 : Nat) :: [1, 0])) ∧
    (∃ (rs' : List (List Nat)) (c : ℚ),
      TwoOptStrategy.optimize 4 (0 :: [1, 0]) cAdj =
        some ((rs'.map (fun cs => 0 :: cs ++ [0])).flatten, c) ∧
      List.Forall₂ (fun cs r => cs.Perm r) rs' ((routesFrom [] [1, 0]).dropLast) ∧
      ((rs'.map (fun cs => 0 :: cs ++ [0])).flatten).length =
        ((0 : Nat) :: [1, 0]).length + ((routesFrom [] [1, 0]).dropLast).length - 1) :=
  ⟨⟨by decide, by simp [List.chain'_cons]⟩,
    two_opt_block_structure cAdj [1, 0] 4 (by decide) (by simp [List.chain'_cons])⟩

/-- Demand carried by one route. -/
def demandOf (nodes : List Nat) (r : List Nat) : Nat :=
  (r.map (fun v => nodes.getD v 0)).sum

/-- The capacity bookkeeping invariant of a partially built tour: the tour
starts at the depot, every closed route fits in the vehicle, and the demand
of the still-open route plus the remaining load never exceeds the
capacity. -/
def SegInv (nodes : List Nat) (a : Ant) : Prop :=
  (∃ rest0, a.path_taken = 0 :: rest0) ∧
  (∀ r ∈ (routesFrom [] a.path_taken.tail).dropLast, demandOf nodes r ≤ a.capacity) ∧
  demandOf nodes ((routesFrom [] a.path_taken.tail).getLastD []) + a.cur_capacity ≤
    a.capacity

theorem routesFrom_append_zero :
    ∀ (rest cur : List Nat), routesFrom cur (rest ++ [0]) = routesFrom cur rest ++ [[]] := by
  intro rest
  induction rest with
  | nil => intro cur; rfl
  | cons x t ih =>
    intro cur
    cases x with
    | zero =>
      show cur :: routesFrom [] (t ++ [0]) = (cur :: routesFrom [] t) ++ [[]]
      rw [ih []]
      rfl
    | succ i =>
      show routesFrom (cur ++ [i + 1]) (t ++ [0]) = routesFrom (cur ++ [i + 1]) t ++ [[]]
      exact ih (cur ++ [i + 1])

theorem routesFrom_append_nonzero (v : Nat) (hv : v ≠ 0) :
    ∀ (rest cur : List Nat), routesFrom cur (rest ++ [v]) =
      (routesFrom cur rest).dropLast ++ [(routesFrom cur rest).getLastD [] ++ [v]] := by
  intro rest
  induction rest with
  | nil =>
    intro cur
    cases v with
    | zero => exact absurd rfl hv
    | succ i =>
      show routesFrom (cur ++ [i + 1]) [] = ([cur]).dropLast ++ [([cur]).getLastD [] ++ [i + 1]]
      rfl
  | cons x t ih =>
    intro cur
    cases x with
    | zero =>
      show cur :: routesFrom [] (t ++ [v]) =
        (cur :: routesFrom [] t).dropLast ++ [(cur :: routesFrom [] t).getLastD [] ++ [v]]
      rw [ih []]
      rw [List.dropLast_cons_of_ne_nil (routesFrom_ne_nil t [])]
      rw [getLastD_cons_of_ne_nil cur _ (routesFrom_ne_nil t []) []]
      rfl
    | succ i =>
      show routesFrom (cur ++ [i + 1]) (t ++ [v]) =
        (routesFrom (cur ++ [i + 1]) t).dropLast ++
          [(routesFrom (cur ++ [i + 1]) t).getLastD [] ++ [v]]
      exact ih (cur ++ [i + 1])

theorem last_route_empty_of_end_zero (rest0 : List Nat)
    (h : ((0 : Nat) :: rest0).getLastD 0 = 0) :
    (routesFrom [] rest0).getLastD [] = [] := by
  cases rest0 with
  | nil => rfl
  | cons x t =>
    have h1 : (x :: t).getLastD 0 = 0 := h
    rw [List.getLastD_eq_getLast?] at h1
    cases hgl : (x :: t).getLast? with
    | none => exact absurd hgl (by simp)
    | some z =>
      rw [hgl] at h1
      simp only [Option.getD_some] at h1
      subst h1
      exact routesFrom_getLast_of_end_zero (x :: t) [] hgl

theorem find_next_node_inv (a : Ant) (adj pher : Matrix) (nodes : List Nat) (r : ℚ)
    (v : Nat) (h : a.find_next_node adj pher nodes r = some v) :
    ∃ nn demand, get_next_node_by_probability r (a.distribution_vec adj pher)
        (sumSomes (a.distribution_vec adj pher)) = some nn ∧
      nodes.get? nn = some demand ∧
      v = if a.cur_capacity < demand then 0 else nn := by
  simp only [Ant.find_next_node] at h
  cases hsel : get_next_node_by_probability r (a.distribution_vec adj pher)
      (sumSomes (a.distribution_vec adj pher)) with
  | none => rw [hsel] at h; exact absurd h (by simp)
  | some nn =>
    rw [hsel] at h
    have h2 : (match nodes.get? nn with
        | none => none
        | some demand => some (if a.cur_capacity < demand then 0 else nn)) = some v := h
    cases hget : nodes.get? nn with
    | none => rw [hget] at h2; exact absurd h2 (by simp)
    | some demand =>
      rw [hget] at h2
      simp only [Option.some.injEq] at h2
      exact ⟨nn, demand, rfl, hget, h2.symm⟩

theorem move_to_next_cases (adj pher : Matrix) (nodes : List Nat) (r : ℚ) (a b : Ant)
    (h : a.move_to_next adj pher nodes r = some b) :
    ∃ v, b.path_taken = a.path_taken ++ [v] ∧
      b.capacity = a.capacity ∧
      b.cur_capacity =
        (if a.cur_node = 0 then a.capacity else a.cur_capacity) - nodes.getD v 0 ∧
      (v = 0 ∨
        nodes.getD v 0 ≤ (if a.cur_node = 0 then a.capacity else a.cur_capacity)) := by
  simp only [Ant.move_to_next] at h
  set a1 := if a.cur_node = 0 then { a with cur_capacity := a.capacity } else a with ha1
  cases hf : a1.find_next_node adj pher nodes r with
  | none => rw [hf] at h; exact absurd h (by simp)
  | some v =>
    rw [hf] at h
    simp only [Option.some.injEq] at h
    have hcap1 : a1.cur_capacity = if a.cur_node = 0 then a.capacity else a.cur_capacity := by
      rw [ha1]; split <;> rfl
    have hcapa : a1.capacity = a.capacity := by rw [ha1]; split <;> rfl
    have hpath1 : a1.path_taken = a.path_taken := by rw [ha1]; split <;> rfl
    obtain ⟨nn, demand, _, hget, hv⟩ := find_next_node_inv a1 adj pher nodes r v hf
    have hgd : nodes.getD nn 0 = demand := by
      rw [List.getD_eq_getElem?_getD, ← List.get?_eq_getElem?, hget]
      rfl
    refine ⟨v, ?_, ?_, ?_, ?_⟩
    · rw [← h]
      simp only [Ant.visit]
      rw [hpath1]
    · rw [← h]
      simp only [Ant.visit]
      rw [hcapa]
    · rw [← h]
      simp only [Ant.visit]
      rw [hcap1]
    · by_cases hov : a1.cur_capacity < demand
      · left
        rw [hv, if_pos hov]
      · right
        rw [hv, if_neg hov]
        rw [hgd, ← hcap1]
        omega

theorem move_preserves_SegInv (adj pher : Matrix) (nodes : List Nat) (r : ℚ) (a b : Ant)
    (hinv : SegInv nodes a) (h : a.move_to_next adj pher nodes r = some b) :
    SegInv nodes b ∧ b.capacity = a.capacity := by
  obtain ⟨⟨rest0, hpath⟩, hdone, hopen⟩ := hinv
  obtain ⟨v, hbpath, hbcap, hbcur, hbcase⟩ := move_to_next_cases adj pher nodes r a b h
  have hpt : a.path_taken.tail = rest0 := by rw [hpath]; rfl
  rw [hpt] at hdone hopen
  have hbtail : b.path_taken.tail = rest0 ++ [v] := by rw [hbpath, hpath]; rfl
  have hcurle : (if a.cur_node = 0 then a.capacity else a.cur_capacity) ≤ a.capacity := by
    split
    · exact le_refl _
    · omega
  refine ⟨⟨⟨rest0 ++ [v], by rw [hbpath, hpath]; rfl⟩, ?_, ?_⟩, hbcap⟩
  · intro q hq
    rw [hbtail] at hq
    rw [hbcap]
    cases v with
    | zero =>
      rw [routesFrom_append_zero rest0 []] at hq
      rw [List.dropLast_concat] at hq
      have hsplit := routes_split_last (routesFrom [] rest0) (routesFrom_ne_nil rest0 [])
      rw [hsplit] at hq
      rcases List.mem_append.mp hq with h1 | h1
      · exact hdone q h1
      · have hq2 : q = (routesFrom [] rest0).getLastD [] := by simpa using h1
        rw [hq2]
        omega
    | succ i =>
      rw [routesFrom_append_nonzero (i + 1) (by simp) rest0 []] at hq
      rw [List.dropLast_concat] at hq
      exact hdone q hq
  · rw [hbtail, hbcap, hbcur]
    cases v with
    | zero =>
      rw [routesFrom_append_zero rest0 [], List.getLastD_concat]
      have hde : demandOf nodes [] = 0 := rfl
      rw [hde]
      omega
    | succ i =>
      rw [routesFrom_append_nonzero (i + 1) (by simp) rest0 [], List.getLastD_concat]
      have hdem : demandOf nodes ((routesFrom [] rest0).getLastD [] ++ [i + 1]) =
          demandOf nodes ((routesFrom [] rest0).getLastD []) + nodes.getD (i + 1) 0 := by
        rw [demandOf, demandOf, List.map_append, List.sum_append]
        simp
      rw [hdem]
      rcases hbcase with hc0 | hle
      · exact absurd hc0 (by simp)
      · by_cases hcz : a.cur_node = 0
        · have hz : ((0 : Nat) :: rest0).getLastD 0 = 0 := by
            have h2 := hcz
            rw [Ant.cur_node, hpath] at h2
            exact h2
          have hlast := last_route_empty_of_end_zero rest0 hz
          rw [hlast]
          have hde : demandOf nodes [] = 0 := rfl
          rw [hde]
          rw [if_pos hcz] at hle ⊢
          omega
        · rw [if_neg hcz] at hle ⊢
          omega

theorem constructTour_preserves_SegInv (adj pher : Matrix) (nodes : List Nat)
    (rnd : Nat → ℚ) :
    ∀ (fuel step : Nat) (a b : Ant), SegInv nodes a →
      constructTour adj pher nodes rnd fuel step a = some b →
      SegInv nodes b ∧ b.capacity = a.capacity := by
  intro fuel
  induction fuel with
  | zero => intro step a b _ h; exact absurd h (by simp [constructTour])
  | succ n ih =>
    intro step a b hinv h
    rw [constructTour] at h
    by_cases hd : a.done
    · rw [if_pos hd] at h
      cases h
      exact ⟨hinv, rfl⟩
    · rw [if_neg hd] at h
      cases hm : a.move_to_next adj pher nodes (rnd step) with
      | none => rw [hm] at h; exact absurd h (by simp)
      | some a1 =>
        rw [hm] at h
        obtain ⟨hinv1, hcap1⟩ := move_preserves_SegInv adj pher nodes (rnd step) a a1 hinv hm
        obtain ⟨hinv2, hcap2⟩ := ih (step + 1) a1 b hinv1 h
        exact ⟨hinv2, by rw [hcap2, hcap1]⟩

theorem SegInv_all_routes (nodes : List Nat) (b : Ant) (hinv : SegInv nodes b) :
    ∀ q ∈ routesFrom [] b.path_taken.tail, demandOf nodes q ≤ b.capacity := by
  obtain ⟨_, hdone, hopen⟩ := hinv
  intro q hq
  have hsplit := routes_split_last (routesFrom [] b.path_taken.tail)
    (routesFrom_ne_nil _ [])
  rw [hsplit] at hq
  rcases List.mem_append.mp hq with h1 | h1
  · exact hdone q h1
  · have hq2 : q = (routesFrom [] b.path_taken.tail).getLastD [] := by simpa using h1
    rw [hq2]
    omega

theorem routesFrom_no_zero :
    ∀ (rest cur : List Nat), (∀ x ∈ cur, x ≠ 0) →
      ∀ r ∈ routesFrom cur rest, ∀ x ∈ r, x ≠ 0 := by
  intro rest
  induction rest with
  | nil =>
    intro cur hcur r hr
    have : r = cur := by simpa [routesFrom] using hr
    rw [this]
    exact hcur
  | cons h t ih =>
    intro cur hcur r hr
    cases h with
    | zero =>
      rcases List.mem_cons.mp hr with rfl | hr2
      · exact hcur
      · exact ih [] (by simp) r hr2
    | succ i =>
      refine ih (cur ++ [i + 1]) ?_ r hr
      intro x hx
      rcases List.mem_append.mp hx with h1 | h1
      · exact hcur x h1
      · have : x = i + 1 := by simpa using h1
        omega

theorem routesFrom_single_of_no_zero :
    ∀ (cs cur : List Nat), (∀ x ∈ cs, x ≠ 0) → routesFrom cur cs = [cur ++ cs] := by
  intro cs
  induction cs with
  | nil => intro cur _; simp [routesFrom]
  | cons x t ih =>
    intro cur hcs
    cases x with
    | zero => exact absurd rfl (hcs 0 (List.mem_cons_self _ _))
    | succ i =>
      show routesFrom (cur ++ [i + 1]) t = [cur ++ (i + 1) :: t]
      rw [ih (cur ++ [i + 1]) (fun y hy => hcs y (List.mem_cons_of_mem _ hy))]
      simp

theorem routesFrom_prefix_zero :
    ∀ (X : List Nat), (∀ x ∈ X, x ≠ 0) → ∀ (cur Y : List Nat),
      routesFrom cur (X ++ 0 :: Y) = (cur ++ X) :: routesFrom [] Y := by
  intro X
  induction X with
  | nil => intro _ cur Y; simp [routesFrom]
  | cons x t ih =>
    intro hX cur Y
    cases x with
    | zero => exact absurd rfl (hX 0 (List.mem_cons_self _ _))
    | succ i =>
      show routesFrom (cur ++ [i + 1]) (t ++ 0 :: Y) = (cur ++ (i + 1) :: t) :: routesFrom [] Y
      rw [ih (fun y hy => hX y (List.mem_cons_of_mem _ hy)) (cur ++ [i + 1]) Y]
      simp

theorem routes_of_bracket_flatten :
    ∀ rs' : List (List Nat), (∀ cs ∈ rs', ∀ x ∈ cs, x ≠ 0) → rs' ≠ [] →
      ∃ T, ((rs'.map (fun cs => 0 :: cs ++ [0])).flatten) = 0 :: T ∧
        ∀ r ∈ routesFrom [] T, r ∈ rs' ∨ r = [] := by
  intro rs'
  induction rs' with
  | nil => intro _ h; exact absurd rfl h
  | cons cs rs2 ih =>
    intro hz _
    have hcz : ∀ x ∈ cs, x ≠ 0 := hz cs (List.mem_cons_self _ _)
    by_cases hrs2 : rs2 = []
    · subst hrs2
      refine ⟨cs ++ [0], by simp, ?_⟩
      intro r hr
      rw [routesFrom_append_zero cs []] at hr
      rw [routesFrom_single_of_no_zero cs [] hcz] at hr
      rcases List.mem_append.mp hr with h1 | h1
      · left
        have : r = cs := by simpa using h1
        rw [this]
        exact List.mem_cons_self _ _
      · right
        simpa using h1
    · obtain ⟨T2, hT2, hmem2⟩ := ih (fun q hq => hz q (List.mem_cons_of_mem _ hq)) hrs2
      refine ⟨cs ++ [0] ++ (0 :: T2), ?_, ?_⟩
      · show ((0 :: cs ++ [0]) :: rs2.map (fun cs => 0 :: cs ++ [0])).flatten = _
        rw [show ((0 :: cs ++ [0]) :: rs2.map (fun cs => 0 :: cs ++ [0])).flatten =
          (0 :: cs ++ [0]) ++ (rs2.map (fun cs => 0 :: cs ++ [0])).flatten from rfl]
        rw [hT2]
        simp
      · intro r hr
        rw [show cs ++ [0] ++ (0 :: T2) = cs ++ 0 :: (0 :: T2) by simp] at hr
        rw [routesFrom_prefix_zero cs hcz [] (0 :: T2)] at hr
        rcases List.mem_cons.mp hr with rfl | hr2
        · left
          simpa using List.mem_cons_self cs rs2
        · have hr3 : r ∈ [] :: routesFrom [] T2 := hr2
          rcases List.mem_cons.mp hr3 with rfl | hr4
          · right; rfl
          · rcases hmem2 r hr4 with h1 | h1
            · left; exact List.mem_cons_of_mem _ h1
            · right; exact h1

theorem forall₂_mem_left {α β : Type} (P : α → β → Prop) :
    ∀ (l1 : List α) (l2 : List β), List.Forall₂ P l1 l2 → ∀ x ∈ l1, ∃ y ∈ l2, P x y := by
  intro l1 l2 h
  induction h with
  | nil => intro x hx; exact absurd hx (List.not_mem_nil x)
  | cons hp _ ih =>
    intro x hx
    rcases List.mem_cons.mp hx with rfl | hx2
    · exact ⟨_, List.mem_cons_self _ _, hp⟩
    · obtain ⟨y, hy, hxy⟩ := ih x hx2
      exact ⟨y, List.mem_cons_of_mem _ hy, hxy⟩

theorem demandOf_perm (nodes : List Nat) (cs r : List Nat) (h : cs.Perm r) :
    demandOf nodes cs = demandOf nodes r :=
  List.Perm.sum_eq (h.map (fun v => nodes.getD v 0))

/-- C5: from any capacity-consistent construction state (in particular the
fresh ant of a well-formed problem, where `demands[0] = 0` and every demand
fits the capacity), every route of the completed tour — each maximal
segment of `path_taken` strictly between depot markers — carries total
demand at most the capacity, and the property survives the 2-opt
optimization, which only permutes customers within a route. -/
theorem capacity_feasibility (adj pher : Matrix) (nodes : List Nat) (rnd : Nat → ℚ)
    (fuel : Nat) (a b : Ant)
    (h0 : nodes.getD 0 0 = 0)
    (hcap : ∀ d ∈ nodes, d ≤ a.capacity)
    (hinv : SegInv nodes a)
    (hrun : constructTour adj pher nodes rnd fuel 0 a = some b) :
    (∀ q ∈ routesFrom [] ((b.complete adj).path_taken.tail),
      demandOf nodes q ≤ a.capacity) ∧
    (∀ (fuel2 : Nat) (optAnt : Ant),
      (b.complete adj).optimize_path adj fuel2 = some optAnt →
      ∀ q ∈ routesFrom [] (optAnt.path_taken.tail),
        demandOf nodes q ≤ a.capacity) := by
  obtain ⟨hinvb, hcapb⟩ := constructTour_preserves_SegInv adj pher nodes rnd fuel 0 a b
    hinv hrun
  obtain ⟨rest0, hbpath⟩ := hinvb.1
  have hcpath : (b.complete adj).path_taken = (0 :: rest0) ++ [0] := by
    rw [show (b.complete adj).path_taken = b.path_taken ++ [0] by
      simp [Ant.complete, Ant.visit], hbpath]
  have hctail : (b.complete adj).path_taken.tail = rest0 ++ [0] := by
    rw [hcpath]
    rfl
  have hballq := SegInv_all_routes nodes b hinvb
  rw [hbpath] at hballq
  have hcroutes : ∀ q ∈ routesFrom [] ((b.complete adj).path_taken.tail),
      demandOf nodes q ≤ a.capacity := by
    intro q hq
    rw [hctail, routesFrom_append_zero rest0 []] at hq
    rcases List.mem_append.mp hq with h1 | h1
    · have := hballq q h1
      omega
    · have hq2 : q = [] := by simpa using h1
      rw [hq2]
      show (0 : Nat) ≤ a.capacity
      omega
  refine ⟨hcroutes, ?_⟩
  intro fuel2 optAnt hopt q hq
  rw [Ant.optimize_path] at hopt
  have hcp : (b.complete adj).path_taken = 0 :: (rest0 ++ [0]) := by
    rw [hcpath]
    rfl
  rw [hcp] at hopt
  obtain ⟨rs', hoeq, hf2⟩ := optimize_block_form adj (rest0 ++ [0]) fuel2
  rw [hoeq] at hopt
  simp only [Option.some.injEq] at hopt
  have hpathopt : optAnt.path_taken =
      ((rs'.map (fun cs => 0 :: cs ++ [0])).flatten) := by
    rw [← hopt]
  have hrz : ∀ cs ∈ rs', ∀ x ∈ cs, x ≠ 0 := by
    intro cs hcs x hx
    obtain ⟨rroute, hrmem, hperm⟩ := forall₂_mem_left _ rs' _ hf2 cs hcs
    have hrmem2 : rroute ∈ routesFrom [] (rest0 ++ [0]) :=
      List.dropLast_subset _ hrmem
    exact routesFrom_no_zero (rest0 ++ [0]) [] (by simp) rroute hrmem2 x
      (hperm.mem_iff.mp hx)
  by_cases hrs' : rs' = []
  · rw [hrs'] at hpathopt
    rw [hpathopt] at hq
    simp [routesFrom] at hq
    rw [hq]
    show (0 : Nat) ≤ a.capacity
    omega
  · obtain ⟨T, hT, hmem⟩ := routes_of_bracket_flatten rs' hrz hrs'
    rw [hpathopt, hT] at hq
    have hq2 : q ∈ routesFrom [] T := hq
    rcases hmem q hq2 with h1 | h1
    · obtain ⟨rroute, hrmem, hperm⟩ := forall₂_mem_left _ rs' _ hf2 q h1
      rw [demandOf_perm nodes q rroute hperm]
      have hrmem2 : rroute ∈ (routesFrom [] (rest0 ++ [0])).dropLast := hrmem
      have : rroute ∈ routesFrom [] (rest0 ++ [0]) := List.dropLast_subset _ hrmem2
      rw [routesFrom_append_zero rest0 []] at this
      rcases List.mem_append.mp this with h2 | h2
      · have := hballq rroute h2
        omega
      · have hq3 : rroute = [] := by simpa using h2
        rw [hq3]
        show (0 : Nat) ≤ a.capacity
        omega
    · rw [h1]
      show (0 : Nat) ≤ a.capacity
      omega

/-- Witness for C5 on the two-node instance with the fresh ant. -/
theorem capacity_feasibility_witness :
    (cDemands.getD 0 0 = 0 ∧ (∀ d ∈ cDemands, d ≤ (Ant.new 2 1).capacity) ∧
      SegInv cDemands (Ant.new 2 1) ∧
      constructTour cAdj cPher cDemands cRnd 3 0 (Ant.new 2 1) = some cAntDone) ∧
    ((∀ q ∈ routesFrom [] ((cAntDone.complete cAdj).path_taken.tail),
        demandOf cDemands q ≤ (Ant.new 2 1).capacity) ∧
      (∀ (fuel2 : Nat) (optAnt : Ant),
        (cAntDone.complete cAdj).optimize_path cAdj fuel2 = some optAnt →
        ∀ q ∈ routesFrom [] (optAnt.path_taken.tail),
          demandOf cDemands q ≤ (Ant.new 2 1).capacity)) :=
  ⟨⟨by decide, by decide,
    ⟨⟨[], by decide⟩, by decide, by decide⟩, by
      norm_num [constructTour, Ant.move_to_next, Ant.find_next_node, Ant.distribution_vec,
        get_next_node_by_probability, selectFrom, sumSomes, calc_edge_weight, Ant.new,
        Ant.done, Ant.cur_node, Ant.visit, Matrix.get, Matrix.size, Matrix.filled_with,
        cAdj, cPher, cDemands, cRnd, cAntDone, List.range_succ,
        List.replicate_succ, List.set_cons_zero, List.set_cons_succ]⟩,
    capacity_feasibility cAdj cPher cDemands cRnd 3 (Ant.new 2 1) cAntDone
      (by decide) (by decide)
      ⟨⟨[], by decide⟩, by decide, by decide⟩ (by
      norm_num [constructTour, Ant.move_to_next, Ant.find_next_node, Ant.distribution_vec,
        get_next_node_by_probability, selectFrom, sumSomes, calc_edge_weight, Ant.new,
        Ant.done, Ant.cur_node, Ant.visit, Matrix.get, Matrix.size, Matrix.filled_with,
        cAdj, cPher, cDemands, cRnd, cAntDone, List.range_succ,
        List.replicate_succ, List.set_cons_zero, List.set_cons_succ])⟩

/-- Spec-side weight for C3, following the spec text: unvisited nodes get
`savings^9 · pheromone^2 · (1/distance)^5`, visited nodes get `0`. -/
def specWeight (a : Ant) (adj pher : Matrix) (i : Nat) : ℚ :=
  if a.visited.getD i true then 0
  else (adj.get a.cur_node 0 + adj.get 0 i - adj.get a.cur_node i) ^ 9 *
    pher.get a.cur_node i ^ 2 * (1 / adj.get a.cur_node i) ^ 5

/-- Spec-side total weight `T` for C3. -/
def specTotal (a : Ant) (adj pher : Matrix) : ℚ :=
  ((List.range adj.size).map (specWeight a adj pher)).sum

/-- Spec-side cumulative weight `S` up to and including `v` for C3. -/
def specCumul (a : Ant) (adj pher : Matrix) (v : Nat) : ℚ :=
  ((List.range (v + 1)).map (specWeight a adj pher)).sum

/-- Spec-side candidate for C3: the smallest unvisited index whose
cumulative weight satisfies `r · T ≤ S`. -/
def specCandidate (a : Ant) (adj pher : Matrix) (r : ℚ) : Option Nat :=
  (List.range adj.size).find? (fun v =>
    if a.visited.getD v true = false ∧
        r * specTotal a adj pher ≤ specCumul a adj pher v then true else false)

/-- Spec-side description of one construction step for C3: refill at the
depot, pick the candidate, apply the capacity override, then update cost,
load, path and the visited set. -/
def specMove (a : Ant) (adj pher : Matrix) (nodes : List Nat) (r : ℚ) : Option Ant :=
  let a1 := if a.cur_node = 0 then { a with cur_capacity := a.capacity } else a
  match specCandidate a1 adj pher r with
  | none => none
  | some c =>
    let v := if nodes.getD c 0 > a1.cur_capacity then 0 else c
    some { a1 with
      path_taken := a1.path_taken ++ [v]
      path_cost := a1.path_cost + adj.get a.cur_node v
      cur_capacity := a1.cur_capacity - nodes.getD v 0
      visited := if a1.visited.getD v false then a1.visited else a1.visited.set v true
      visited_count := if a1.visited.getD v false then a1.visited_count
        else a1.visited_count + 1 }

theorem find?_congr_mem {α : Type} (p q : α → Bool) :
    ∀ l : List α, (∀ x ∈ l, p x = q x) → l.find? p = l.find? q := by
  intro l
  induction l with
  | nil => intro _; rfl
  | cons x t ih =>
    intro h
    rw [List.find?_cons, List.find?_cons, h x (List.mem_cons_self _ _),
      ih (fun y hy => h y (List.mem_cons_of_mem _ hy))]

theorem sumSomes_map_getD (f : Nat → Option ℚ) :
    ∀ l : List Nat, sumSomes (l.map f) = (l.map (fun x => (f x).getD 0)).sum := by
  intro l
  induction l with
  | nil => rfl
  | cons x t ih =>
    rw [List.map_cons, List.map_cons, List.sum_cons]
    cases hfx : f x with
    | none =>
      rw [show sumSomes (none :: t.map f) = sumSomes (t.map f) from rfl, ih]
      simp
    | some d =>
      rw [show sumSomes (some d :: t.map f) = d + sumSomes (t.map f) from rfl, ih]
      rfl

theorem selectFrom_eq_find (r T : ℚ) (f : Nat → Option ℚ) :
    ∀ (k s : Nat) (temp : ℚ),
      selectFrom r T s temp ((List.range' s k).map f) =
        (List.range' s k).find? (fun v =>
          if (f v).isSome = true ∧ r / (1 / T) ≤ temp +
              ((List.range' s (v + 1 - s)).map (fun x => (f x).getD 0)).sum
          then true else false) := by
  intro k
  induction k with
  | zero => intro s temp; rfl
  | succ n ih =>
    intro s temp
    rw [List.range'_succ, List.map_cons, List.find?_cons]
    have hsum : ∀ v : Nat, s ≤ v →
        ((List.range' s (v + 1 - s)).map (fun x => (f x).getD 0)).sum =
          (f s).getD 0 +
            ((List.range' (s + 1) (v + 1 - (s + 1))).map (fun x => (f x).getD 0)).sum := by
      intro v hsv
      rw [show v + 1 - s = (v + 1 - (s + 1)) + 1 by omega, List.range'_succ,
        List.map_cons, List.sum_cons]
    beta_reduce
    cases hfs : f s with
    | none =>
      show selectFrom r T (s + 1) temp ((List.range' (s + 1) n).map f) = _
      rw [ih (s + 1) temp]
      simp only [Option.isSome_none, Bool.false_eq_true, false_and, if_false]
      apply find?_congr_mem
      intro v hv
      beta_reduce
      have hsv : s + 1 ≤ v := (mem_range'_bounds v (s + 1) n hv).1
      rw [hsum v (by omega), hfs]
      simp only [Option.getD_none, zero_add]
    | some d =>
      show (if r / (1 / T) ≤ temp + d then some s
        else selectFrom r T (s + 1) (temp + d) ((List.range' (s + 1) n).map f)) = _
      have hconds : (if (some d : Option ℚ).isSome = true ∧ r / (1 / T) ≤ temp +
          ((List.range' s (s + 1 - s)).map (fun x => (f x).getD 0)).sum
          then true else false) =
          (if r / (1 / T) ≤ temp + d then true else false) := by
        rw [show s + 1 - s = 1 by omega]
        rw [show (List.range' s 1) = [s] from rfl]
        rw [List.map_singleton, List.sum_singleton, hfs]
        simp only [Option.isSome_some, Option.getD_some, true_and]
      rw [hconds]
      by_cases hc : r / (1 / T) ≤ temp + d
      · rw [if_pos hc, if_pos hc]
      · rw [if_neg hc, if_neg hc]
        rw [ih (s + 1) (temp + d)]
        show _ = (List.range' (s + 1) n).find? _
        apply find?_congr_mem
        intro v hv
        beta_reduce
        have hsv : s + 1 ≤ v := (mem_range'_bounds v (s + 1) n hv).1
        rw [hsum v (by omega), hfs]
        rw [show temp + (Option.getD (some d) 0 +
          ((List.range' (s + 1) (v + 1 - (s + 1))).map (fun x => (f x).getD 0)).sum) =
          temp + d + ((List.range' (s + 1) (v + 1 - (s + 1))).map
            (fun x => (f x).getD 0)).sum by rw [Option.getD_some]; ring]

theorem sumSomes_map_eq_sum (f : Nat → Option ℚ) (g : Nat → ℚ)
    (h : ∀ x, (f x).getD 0 = g x) :
    ∀ l : List Nat, sumSomes (l.map f) = (l.map g).sum := by
  intro l
  rw [sumSomes_map_getD]
  induction l with
  | nil => rfl
  | cons x t ih =>
    rw [List.map_cons, List.map_cons, List.sum_cons, List.sum_cons, ih]
    beta_reduce
    rw [h x]

theorem dv_getD_eq_specWeight (a : Ant) (adj pher : Matrix) (x : Nat) :
    ((if a.visited.getD x true then none
      else
        some (calc_edge_weight
          (adj.get a.cur_node 0 + adj.get 0 x - adj.get a.cur_node x)
          (pher.get a.cur_node x) (adj.get a.cur_node x)) : Option ℚ)).getD 0 =
      specWeight a adj pher x := by
  by_cases hv : a.visited.getD x true
  · rw [if_pos hv, specWeight, if_pos hv]; rfl
  · rw [if_neg hv, specWeight, if_neg hv]; rfl

theorem sumSomes_dv_eq_specTotal (a : Ant) (adj pher : Matrix) :
    sumSomes (a.distribution_vec adj pher) = specTotal a adj pher := by
  rw [show a.distribution_vec adj pher = (List.range adj.size).map (fun i =>
      if a.visited.getD i true then none
      else some (calc_edge_weight
        (adj.get a.cur_node 0 + adj.get 0 i - adj.get a.cur_node i)
        (pher.get a.cur_node i) (adj.get a.cur_node i))) from rfl]
  rw [specTotal]
  exact sumSomes_map_eq_sum _ _ (dv_getD_eq_specWeight a adj pher) _

theorem selection_eq_specCandidate (a : Ant) (adj pher : Matrix) (r : ℚ) :
    get_next_node_by_probability r (a.distribution_vec adj pher)
        (sumSomes (a.distribution_vec adj pher)) =
      specCandidate a adj pher r := by
  have hdv : a.distribution_vec adj pher = (List.range' 0 adj.size).map (fun i =>
      if a.visited.getD i true then none
      else some (calc_edge_weight
        (adj.get a.cur_node 0 + adj.get 0 i - adj.get a.cur_node i)
        (pher.get a.cur_node i) (adj.get a.cur_node i))) := by
    rw [← List.range_eq_range']
    rfl
  have hT := sumSomes_dv_eq_specTotal a adj pher
  rw [get_next_node_by_probability, hdv, selectFrom_eq_find, specCandidate,
    List.range_eq_range']
  apply find?_congr_mem
  intro v hv
  beta_reduce
  have hTr : r / (1 / sumSomes (a.distribution_vec adj pher)) =
      r * specTotal a adj pher := by
    rw [div_div_eq_mul_div, div_one, hT]
  rw [← hdv]
  have hcum : (0 : ℚ) + ((List.range' 0 (v + 1 - 0)).map (fun x =>
      ((if a.visited.getD x true then none
        else
          some (calc_edge_weight
            (adj.get a.cur_node 0 + adj.get 0 x - adj.get a.cur_node x)
            (pher.get a.cur_node x) (adj.get a.cur_node x)) : Option ℚ)).getD 0)).sum =
      specCumul a adj pher v := by
    rw [zero_add, Nat.sub_zero, ← List.range_eq_range', specCumul]
    rw [show (fun x : Nat =>
        ((if a.visited.getD x true then none
          else
            some (calc_edge_weight
              (adj.get a.cur_node 0 + adj.get 0 x - adj.get a.cur_node x)
              (pher.get a.cur_node x) (adj.get a.cur_node x)) : Option ℚ)).getD 0) =
        specWeight a adj pher from funext (dv_getD_eq_specWeight a adj pher)]
  rw [hTr, hcum]
  cases hvb : a.visited.getD v true with
  | true => simp [hvb]
  | false => simp [hvb]

theorem getD_of_get? {α : Type} :
    ∀ (l : List α) (n : Nat) (x d : α), l.get? n = some x → l.getD n d = x := by
  intro l
  induction l with
  | nil => intro n x d h; exact absurd h (by simp)
  | cons y t ih =>
    intro n x d h
    cases n with
    | zero =>
      rw [show (y :: t).get? 0 = some y from rfl] at h
      rw [Option.some.injEq] at h
      rw [show (y :: t).getD 0 d = y from rfl, h]
    | succ m =>
      rw [show (y :: t).get? (m + 1) = t.get? m from rfl] at h
      rw [show (y :: t).getD (m + 1) d = t.getD m d from rfl]
      exact ih m x d h

/-- C3 — On any ant state with an unvisited node, for a well-formed distance
matrix (nonnegative entries satisfying the depot triangle inequality) and a
draw `r ∈ [0,1)`, `move_to_next` coincides with the spec's description: refill
at the depot, weight each unvisited node by
`savings^9 · pheromone^2 · (1/distance)^5` and visited ones by `0`, pick the
smallest candidate whose cumulative weight reaches `r · T`, override it to the
depot when its demand exceeds the remaining capacity, then update cost,
capacity, path and the visited set; in particular the step succeeds. -/
theorem move_to_next_refines_spec (a : Ant) (adj pher : Matrix) (nodes : List Nat) (r : ℚ)
    (hex : ∃ i, i < adj.size ∧ a.visited.getD i true = false)
    (hadj : ∀ u v, 0 ≤ adj.get u v)
    (htri : ∀ u v, adj.get u v ≤ adj.get u 0 + adj.get 0 v)
    (hr0 : 0 ≤ r) (hr1 : r < 1)
    (hlen : nodes.length = adj.size) :
    a.move_to_next adj pher nodes r = specMove a adj pher nodes r ∧
      (a.move_to_next adj pher nodes r).isSome := by
  set a1 := if a.cur_node = 0 then { a with cur_capacity := a.capacity } else a with ha1
  have ha1v : a1.visited = a.visited := by
    rw [ha1]
    by_cases h0 : a.cur_node = 0
    · rw [if_pos h0]
    · rw [if_neg h0]
  have hex1 : ∃ i, i < adj.size ∧ a1.visited.getD i true = false := by
    rw [ha1v]; exact hex
  have hnn0 := distribution_vec_nonneg a1 adj pher hadj htri
  have hT0 : 0 ≤ sumSomes (a1.distribution_vec adj pher) := sumSomes_nonneg _ hnn0
  have hsel : ∃ j, get_next_node_by_probability r (a1.distribution_vec adj pher)
      (sumSomes (a1.distribution_vec adj pher)) = some j := by
    apply selectFrom_isSome r _ _ 0 0 (distribution_vec_has_some a1 adj pher hex1)
    rw [div_div_eq_mul_div, div_one, zero_add]
    nlinarith [mul_nonneg (sub_nonneg.mpr hr1.le) hT0]
  obtain ⟨nn, hnn⟩ := hsel
  have hspecc : specCandidate a1 adj pher r = some nn := by
    rw [← selection_eq_specCandidate]; exact hnn
  have hnnlt : nn < adj.size := by
    have hfind := hspecc
    rw [specCandidate] at hfind
    exact List.mem_range.mp (List.mem_of_find?_eq_some hfind)
  have hnlt : nn < nodes.length := by rw [hlen]; exact hnnlt
  obtain ⟨dem, hdem⟩ : ∃ dem, nodes.get? nn = some dem :=
    ⟨nodes.get ⟨nn, hnlt⟩, List.get?_eq_get hnlt⟩
  have hgd : nodes.getD nn 0 = dem := getD_of_get? nodes nn dem 0 hdem
  have hfind : a1.find_next_node adj pher nodes r =
      some (if a1.cur_capacity < dem then 0 else nn) := by
    simp only [Ant.find_next_node, hnn, hdem]
  have hmv : a.move_to_next adj pher nodes r =
      some (({ a1 with
        path_cost := a1.path_cost +
          adj.get a.cur_node (if a1.cur_capacity < dem then 0 else nn)
        cur_capacity := a1.cur_capacity -
          nodes.getD (if a1.cur_capacity < dem then 0 else nn) 0 }).visit
          (if a1.cur_capacity < dem then 0 else nn)) := by
    simp only [Ant.move_to_next]
    rw [← ha1, hfind]
  have hsm : specMove a adj pher nodes r =
      some { a1 with
        path_taken := a1.path_taken ++
          [if nodes.getD nn 0 > a1.cur_capacity then 0 else nn]
        path_cost := a1.path_cost +
          adj.get a.cur_node (if nodes.getD nn 0 > a1.cur_capacity then 0 else nn)
        cur_capacity := a1.cur_capacity -
          nodes.getD (if nodes.getD nn 0 > a1.cur_capacity then 0 else nn) 0
        visited := if a1.visited.getD
            (if nodes.getD nn 0 > a1.cur_capacity then 0 else nn) false then a1.visited
          else a1.visited.set (if nodes.getD nn 0 > a1.cur_capacity then 0 else nn) true
        visited_count := if a1.visited.getD
            (if nodes.getD nn 0 > a1.cur_capacity then 0 else nn) false
          then a1.visited_count else a1.visited_count + 1 } := by
    simp only [specMove]
    rw [← ha1, hspecc]
  refine ⟨?_, by rw [hmv]; rfl⟩
  rw [hmv, hsm, hgd]
  simp only [gt_iff_lt]
  rfl

theorem move_to_next_refines_spec_witness :
    ((∃ i, i < cAdj.size ∧ (Ant.new 2 1).visited.getD i true = false) ∧
      (0 : ℚ) ≤ 0 ∧ (0 : ℚ) < 1 ∧ cDemands.length = cAdj.size) ∧
    ((Ant.new 2 1).move_to_next cAdj cPher cDemands 0 =
        specMove (Ant.new 2 1) cAdj cPher cDemands 0 ∧
      ((Ant.new 2 1).move_to_next cAdj cPher cDemands 0).isSome) :=
  ⟨⟨⟨1, by decide, by decide⟩, by norm_num, by norm_num, by decide⟩,
    move_to_next_refines_spec (Ant.new 2 1) cAdj cPher cDemands 0
      ⟨1, by decide, by decide⟩ cAdj_nonneg cAdj_triangle (by norm_num) (by norm_num)
      (by decide)⟩

theorem getD_irrel {α : Type} :
    ∀ (l : List α) (v : Nat), v < l.length → ∀ d1 d2 : α, l.getD v d1 = l.getD v d2 := by
  intro l
  induction l with
  | nil => intro v h; exact absurd h (by simp)
  | cons x t ih =>
    intro v h d1 d2
    cases v with
    | zero => rfl
    | succ m => exact ih m (by simpa using h) d1 d2

theorem getD_set_ne {α : Type} :
    ∀ (l : List α) (v u : Nat) (x d : α), u ≠ v → (l.set v x).getD u d = l.getD u d := by
  intro l
  induction l with
  | nil => intro v u x d _; rfl
  | cons y t ih =>
    intro v u x d h
    cases v with
    | zero =>
      cases u with
      | zero => exact absurd rfl h
      | succ m => rfl
    | succ mv =>
      cases u with
      | zero => rfl
      | succ mu => exact ih mv mu x d (by omega)

theorem count_true_set (l : List Bool) :
    ∀ (v : Nat), v < l.length → l.getD v false = false →
      (l.set v true).count true = l.count true + 1 := by
  induction l with
  | nil => intro v h _; exact absurd h (by simp)
  | cons b t ih =>
    intro v hv hb
    cases v with
    | zero =>
      have hbf : b = false := hb
      subst hbf
      rw [show ((false :: t).set 0 true) = true :: t from rfl]
      rw [List.count_cons, List.count_cons]
      simp
    | succ m =>
      rw [show ((b :: t).set (m + 1) true) = b :: t.set m true from rfl]
      rw [List.count_cons, List.count_cons, ih m (by simpa using hv) hb]
      omega

theorem exists_unvisited_of_count_lt :
    ∀ l : List Bool, l.count true < l.length →
      ∃ i, i < l.length ∧ l.getD i true = false := by
  intro l
  induction l with
  | nil => intro h; exact absurd h (by simp)
  | cons b t ih =>
    intro h
    cases b with
    | false => exact ⟨0, by simp, rfl⟩
    | true =>
      rw [List.count_cons] at h
      simp only [List.length_cons, beq_self_eq_true, if_pos] at h
      obtain ⟨i, hi, hgi⟩ := ih (by omega)
      exact ⟨i + 1, by simpa using hi, hgi⟩

/-- The loop invariant of each ant during `Simulator::update_ants`:
bookkeeping fields are consistent, the depot is visited, the path starts at
the depot, and no demand exceeds the vehicle capacity. -/
def AntInv (n : Nat) (nodes : List Nat) (a : Ant) : Prop :=
  a.num_nodes = n ∧ a.visited.length = n ∧ a.visited_count = a.visited.count true ∧
  a.visited.getD 0 false = true ∧ (∃ t, a.path_taken = 0 :: t) ∧
  (∀ i, i < nodes.length → nodes.getD i 0 ≤ a.capacity)

/-- Termination measure for the construction loop: two per missing customer,
plus one when the ant is away from the depot. -/
def antMeasure (n : Nat) (a : Ant) : Nat :=
  2 * (n - a.visited_count) + (if a.cur_node = 0 then 0 else 1)

theorem move_step_data (a : Ant) (adj pher : Matrix) (nodes : List Nat) (r : ℚ)
    (hex : ∃ i, i < adj.size ∧ a.visited.getD i true = false)
    (hadj : ∀ u v, 0 ≤ adj.get u v)
    (htri : ∀ u v, adj.get u v ≤ adj.get u 0 + adj.get 0 v)
    (hr0 : 0 ≤ r) (hr1 : r < 1)
    (hlen : nodes.length = adj.size) :
    ∃ nn v a2,
      (if (if a.cur_node = 0 then a.capacity else a.cur_capacity) < nodes.getD nn 0
        then 0 else nn) = v ∧
      a.move_to_next adj pher nodes r = some a2 ∧
      nn < adj.size ∧ a.visited.getD nn true = false ∧
      a2.path_taken = a.path_taken ++ [v] ∧
      a2.num_nodes = a.num_nodes ∧
      a2.capacity = a.capacity ∧
      a2.visited = (if a.visited.getD v false then a.visited else a.visited.set v true) ∧
      a2.visited_count =
        (if a.visited.getD v false then a.visited_count else a.visited_count + 1) := by
  set a1 := if a.cur_node = 0 then { a with cur_capacity := a.capacity } else a with ha1
  have ha1v : a1.visited = a.visited := by
    rw [ha1]
    by_cases h0 : a.cur_node = 0
    · rw [if_pos h0]
    · rw [if_neg h0]
  have ha1p : a1.path_taken = a.path_taken := by
    rw [ha1]
    by_cases h0 : a.cur_node = 0
    · rw [if_pos h0]
    · rw [if_neg h0]
  have ha1cap : a1.cur_capacity = if a.cur_node = 0 then a.capacity else a.cur_capacity := by
    rw [ha1]
    by_cases h0 : a.cur_node = 0
    · rw [if_pos h0, if_pos h0]
    · rw [if_neg h0, if_neg h0]
  have hex1 : ∃ i, i < adj.size ∧ a1.visited.getD i true = false := by
    rw [ha1v]; exact hex
  have hnn0 := distribution_vec_nonneg a1 adj pher hadj htri
  have hT0 : 0 ≤ sumSomes (a1.distribution_vec adj pher) := sumSomes_nonneg _ hnn0
  have hsel : ∃ j, get_next_node_by_probability r (a1.distribution_vec adj pher)
      (sumSomes (a1.distribution_vec adj pher)) = some j := by
    apply selectFrom_isSome r _ _ 0 0 (distribution_vec_has_some a1 adj pher hex1)
    rw [div_div_eq_mul_div, div_one, zero_add]
    nlinarith [mul_nonneg (sub_nonneg.mpr hr1.le) hT0]
  obtain ⟨nn, hnn⟩ := hsel
  obtain ⟨k, hk0, hklen, hksome⟩ :=
    selectFrom_some_spec r (sumSomes (a1.distribution_vec adj pher))
      (a1.distribution_vec adj pher) 0 0 nn hnn
  have hdvlen : (a1.distribution_vec adj pher).length = adj.size := by
    rw [Ant.distribution_vec, List.length_map, List.length_range]
  have hnnlt : nn < adj.size := by
    rw [hdvlen] at hklen
    omega
  have hget_dv : (a1.distribution_vec adj pher).get? nn =
      some (if a1.visited.getD nn true then none
        else
          some (calc_edge_weight
            (adj.get a1.cur_node 0 + adj.get 0 nn - adj.get a1.cur_node nn)
            (pher.get a1.cur_node nn) (adj.get a1.cur_node nn))) := by
    rw [show a1.distribution_vec adj pher = (List.range adj.size).map (fun i =>
        if a1.visited.getD i true then none
        else some (calc_edge_weight
          (adj.get a1.cur_node 0 + adj.get 0 i - adj.get a1.cur_node i)
          (pher.get a1.cur_node i) (adj.get a1.cur_node i))) from rfl]
    rw [List.get?_map, List.get?_range hnnlt]
    rfl
  have hunv1 : a1.visited.getD nn true = false := by
    have hgd := getD_of_get? _ _ _ none hget_dv
    have hnnk : k = nn := by omega
    rw [hnnk] at hksome
    rw [hgd] at hksome
    cases hb : a1.visited.getD nn true with
    | true =>
      rw [if_pos hb] at hksome
      exact absurd hksome (by simp)
    | false => rfl
  have hunv : a.visited.getD nn true = false := by rw [← ha1v]; exact hunv1
  have hnlt : nn < nodes.length := by rw [hlen]; exact hnnlt
  obtain ⟨dem, hdem⟩ : ∃ dem, nodes.get? nn = some dem :=
    ⟨nodes.get ⟨nn, hnlt⟩, List.get?_eq_get hnlt⟩
  have hgd : nodes.getD nn 0 = dem := getD_of_get? nodes nn dem 0 hdem
  have hfind : a1.find_next_node adj pher nodes r =
      some (if a1.cur_capacity < dem then 0 else nn) := by
    simp only [Ant.find_next_node, hnn, hdem]
  have hmv : a.move_to_next adj pher nodes r =
      some (({ a1 with
        path_cost := a1.path_cost +
          adj.get a.cur_node (if a1.cur_capacity < dem then 0 else nn)
        cur_capacity := a1.cur_capacity -
          nodes.getD (if a1.cur_capacity < dem then 0 else nn) 0 }).visit
          (if a1.cur_capacity < dem then 0 else nn)) := by
    simp only [Ant.move_to_next]
    rw [← ha1, hfind]
  refine ⟨nn, if a1.cur_capacity < dem then 0 else nn, _,
    by rw [hgd, ha1cap], hmv, hnnlt, hunv, ?_, ?_, ?_, ?_, ?_⟩
  · show ({ a1 with
      path_cost := a1.path_cost +
        adj.get a.cur_node (if a1.cur_capacity < dem then 0 else nn)
      cur_capacity := a1.cur_capacity -
        nodes.getD (if a1.cur_capacity < dem then 0 else nn) 0 } : Ant).path_taken ++
        [if a1.cur_capacity < dem then 0 else nn] = _
    rw [show ({ a1 with
      path_cost := a1.path_cost +
        adj.get a.cur_node (if a1.cur_capacity < dem then 0 else nn)
      cur_capacity := a1.cur_capacity -
        nodes.getD (if a1.cur_capacity < dem then 0 else nn) 0 } : Ant).path_taken =
        a1.path_taken from rfl]
    rw [ha1p]
  · show a1.num_nodes = a.num_nodes
    rw [ha1]
    by_cases h0 : a.cur_node = 0
    · rw [if_pos h0]
    · rw [if_neg h0]
  · show a1.capacity = a.capacity
    rw [ha1]
    by_cases h0 : a.cur_node = 0
    · rw [if_pos h0]
    · rw [if_neg h0]
  · show (if a1.visited.getD (if a1.cur_capacity < dem then 0 else nn) false
      then a1.visited
      else a1.visited.set (if a1.cur_capacity < dem then 0 else nn) true) = _
    rw [ha1v]
  · show (if a1.visited.getD (if a1.cur_capacity < dem then 0 else nn) false
      then a1.visited_count else a1.visited_count + 1) = _
    rw [ha1v]
    have hvc : a1.visited_count = a.visited_count := by
      rw [ha1]
      by_cases h0 : a.cur_node = 0
      · rw [if_pos h0]
      · rw [if_neg h0]
    rw [hvc]

theorem constructTour_success (adj pher : Matrix) (nodes : List Nat) (rnd : Nat → ℚ)
    (hadj : ∀ u v, 0 ≤ adj.get u v)
    (htri : ∀ u v, adj.get u v ≤ adj.get u 0 + adj.get 0 v)
    (hlen : nodes.length = adj.size)
    (hr : ∀ s, 0 ≤ rnd s ∧ rnd s < 1) :
    ∀ (fuel step : Nat) (a : Ant), AntInv adj.size nodes a →
      antMeasure adj.size a < fuel →
      ∃ a', constructTour adj pher nodes rnd fuel step a = some a' ∧
        AntInv adj.size nodes a' := by
  intro fuel
  induction fuel with
  | zero => intro step a _ hm; exact absurd hm (by omega)
  | succ f ih =>
    intro step a hinv hm
    rw [constructTour]
    by_cases hdone : a.done = true
    · rw [if_pos hdone]
      exact ⟨a, rfl, hinv⟩
    · rw [if_neg hdone]
      obtain ⟨hnum, hvlen, hcount, hv0, hpath, hcap⟩ := hinv
      have hne : a.num_nodes ≠ a.visited_count := by
        intro he
        exact hdone (by rw [Ant.done, he]; simp)
      have hcountlt : a.visited.count true < a.visited.length := by
        have hle := List.count_le_length true a.visited
        omega
      obtain ⟨i0, hi0, hgi0⟩ := exists_unvisited_of_count_lt a.visited hcountlt
      have hex : ∃ i, i < adj.size ∧ a.visited.getD i true = false :=
        ⟨i0, by omega, hgi0⟩
      obtain ⟨nn, v, a2, hveq, hmvs, hnnlt, hnnunv, hpath2, hnum2, hcap2, hvis2, hvc2⟩ :=
        move_step_data a adj pher nodes (rnd step) hex hadj htri (hr step).1
          (hr step).2 hlen
      rw [hmvs]
      have hn0 : 0 < adj.size := by omega
      have hnn_ne0 : nn ≠ 0 := by
        intro he
        rw [he] at hnnunv
        have hir := getD_irrel a.visited 0 (by omega) false true
        rw [hv0] at hir
        rw [hnnunv] at hir
        exact absurd hir (by simp)
      have hvcases : v = nn ∨ v = 0 := by
        rw [← hveq]
        by_cases hc : (if a.cur_node = 0 then a.capacity else a.cur_capacity) <
            nodes.getD nn 0
        · right; rw [if_pos hc]
        · left; rw [if_neg hc]
      have hvlt : v < a.visited.length := by
        rcases hvcases with hv | hv <;> omega
      have hvclt : a.visited_count < adj.size := by omega
      have hinv2 : AntInv adj.size nodes a2 := by
        refine ⟨by rw [hnum2]; exact hnum, ?_, ?_, ?_, ?_, ?_⟩
        · rw [hvis2]
          by_cases hvv : a.visited.getD v false = true
          · rw [if_pos hvv]; exact hvlen
          · rw [if_neg hvv, List.length_set]; exact hvlen
        · rw [hvc2, hvis2]
          by_cases hvv : a.visited.getD v false = true
          · rw [if_pos hvv, if_pos hvv]; exact hcount
          · rw [if_neg hvv, if_neg hvv]
            have hvf : a.visited.getD v false = false := by
              cases hb : a.visited.getD v false with
              | true => exact absurd hb hvv
              | false => rfl
            rw [count_true_set a.visited v hvlt hvf, hcount]
        · rw [hvis2]
          by_cases hvv : a.visited.getD v false = true
          · rw [if_pos hvv]; exact hv0
          · rw [if_neg hvv]
            have hvne0 : v ≠ 0 := by
              intro he
              rw [he] at hvv
              exact hvv hv0
            rw [getD_set_ne a.visited v 0 true false (by omega)]
            exact hv0
        · obtain ⟨t, ht⟩ := hpath
          exact ⟨t ++ [v], by rw [hpath2, ht]; rfl⟩
        · intro i hi
          rw [hcap2]
          exact hcap i hi
      have hcur2 : a2.cur_node = v := by
        rw [Ant.cur_node, hpath2, List.getLastD_concat]
      have hmdec : antMeasure adj.size a2 < antMeasure adj.size a := by
        rw [antMeasure, antMeasure, hcur2, hvc2]
        rcases hvcases with hveq2 | hveq2
        · have hunvf : a.visited.getD v false = false := by
            rw [hveq2]
            have hir := getD_irrel a.visited nn (by omega) false true
            rw [hir, hnnunv]
          rw [hunvf]
          have hvne0 : v ≠ 0 := by rw [hveq2]; exact hnn_ne0
          rw [if_neg hvne0]
          simp only [Bool.false_eq_true, if_false]
          by_cases hc0 : a.cur_node = 0
          · rw [if_pos hc0]; omega
          · rw [if_neg hc0]; omega
        · have hcur_ne : a.cur_node ≠ 0 := by
            intro h0
            rw [h0] at hveq
            rw [if_pos rfl] at hveq
            by_cases hc : a.capacity < nodes.getD nn 0
            · have hd := hcap nn (by omega)
              omega
            · rw [if_neg hc] at hveq
              exact hnn_ne0 (by omega)
          rw [hveq2, hv0]
          simp only [if_pos rfl, if_true]
          rw [if_neg hcur_ne]
          omega
      exact ih (step + 1) a2 hinv2 (by omega)

theorem antInv_new (n C : Nat) (nodes : List Nat) (hn : 0 < n)
    (hcap : ∀ i, i < nodes.length → nodes.getD i 0 ≤ C) :
    AntInv n nodes (Ant.new n C) ∧ antMeasure n (Ant.new n C) ≤ 2 * n := by
  obtain ⟨m, rfl⟩ : ∃ m, n = m + 1 := ⟨n - 1, by omega⟩
  have hvis : (Ant.new (m + 1) C).visited = true :: List.replicate m false := by
    rw [Ant.new, List.replicate_succ]
    rfl
  constructor
  · refine ⟨rfl, ?_, ?_, ?_, ⟨[], rfl⟩, fun i hi => hcap i hi⟩
    · rw [hvis, List.length_cons, List.length_replicate]
    · rw [show (Ant.new (m + 1) C).visited_count = 1 from rfl, hvis, List.count_cons,
        List.count_replicate]
      simp
    · rw [hvis]; rfl
  · rw [antMeasure]
    rw [show (Ant.new (m + 1) C).cur_node = 0 from rfl, if_pos rfl]
    rw [show (Ant.new (m + 1) C).visited_count = 1 from rfl]
    omega

theorem twoOpt_optimize_isSome (fuel : Nat) (t : List Nat) (adj : Matrix) :
    ∃ pr, TwoOptStrategy.optimize fuel (0 :: t) adj = some pr := by
  rw [TwoOptStrategy.optimize]
  rw [show convert_to_multiple_paths (0 :: t) =
      (match (routesFrom [] t).map (fun p => 0 :: p ++ [0]) with
        | [] => none
        | bracketed => some bracketed.dropLast) from rfl]
  cases hr : routesFrom [] t with
  | nil => exact absurd hr (routesFrom_ne_nil t [])
  | cons r rs =>
    rw [List.map_cons]
    exact ⟨_, rfl⟩

theorem ant_optimize_isSome (a : Ant) (adj : Matrix) (fuel : Nat)
    (h : ∃ t, a.path_taken = 0 :: t) : ∃ a2, a.optimize_path adj fuel = some a2 := by
  obtain ⟨t, ht⟩ := h
  rw [Ant.optimize_path, ht]
  obtain ⟨pr, hpr⟩ := twoOpt_optimize_isSome fuel t adj
  obtain ⟨p, c⟩ := pr
  rw [hpr]
  exact ⟨_, rfl⟩

theorem processAnt_success (adj pher : Matrix) (nodes : List Nat) (rnd : Nat → ℚ)
    (hadj : ∀ u v, 0 ≤ adj.get u v)
    (htri : ∀ u v, adj.get u v ≤ adj.get u 0 + adj.get 0 v)
    (hlen : nodes.length = adj.size)
    (hr : ∀ s, 0 ≤ rnd s ∧ rnd s < 1)
    (C : Nat) (hn : 0 < adj.size)
    (hcap : ∀ i, i < nodes.length → nodes.getD i 0 ≤ C) :
    ∃ a', processAnt adj pher nodes rnd (2 * adj.size + 1) (Ant.new adj.size C) =
      some a' := by
  obtain ⟨hinv, hmeas⟩ := antInv_new adj.size C nodes hn hcap
  obtain ⟨a1, hct, hinv1⟩ :=
    constructTour_success adj pher nodes rnd hadj htri hlen hr
      (2 * adj.size + 1) 0 (Ant.new adj.size C) hinv (by omega)
  rw [processAnt, hct]
  apply ant_optimize_isSome
  obtain ⟨t, ht⟩ := hinv1.2.2.2.2.1
  refine ⟨t ++ [0], ?_⟩
  rw [show (a1.complete adj).path_taken = a1.path_taken ++ [0] from rfl, ht]
  rfl

theorem mapM_some_of_all {α β : Type} (f : α → Option β) :
    ∀ l : List α, (∀ x ∈ l, ∃ y, f x = some y) →
      ∃ l', l.mapM f = some l' ∧ l'.length = l.length := by
  intro l
  induction l with
  | nil => intro _; exact ⟨[], by rw [List.mapM_nil]; rfl, rfl⟩
  | cons x t ih =>
    intro h
    obtain ⟨y, hy⟩ := h x (List.mem_cons_self _ _)
    obtain ⟨l', hl', hlen⟩ := ih (fun z hz => h z (List.mem_cons_of_mem _ hz))
    refine ⟨y :: l', ?_, by rw [List.length_cons, List.length_cons, hlen]⟩
    rw [List.mapM_cons, hy, hl']
    rfl

theorem update_ants_success (st : Simulator) (rnds : Nat → Nat → ℚ)
    (hadj : ∀ u v, 0 ≤ st.adjacency_matrix.get u v)
    (htri : ∀ u v, st.adjacency_matrix.get u v ≤
      st.adjacency_matrix.get u 0 + st.adjacency_matrix.get 0 v)
    (hlen : st.demands.length = st.adjacency_matrix.size)
    (hr : ∀ i s, 0 ≤ rnds i s ∧ rnds i s < 1)
    (hn : 0 < st.num_nodes)
    (hants : ∀ a ∈ st.ants, a = Ant.new st.num_nodes st.capacity)
    (hcap : ∀ i, i < st.demands.length → st.demands.getD i 0 ≤ st.capacity) :
    ∃ st1, st.update_ants rnds (2 * st.num_nodes + 1) = some st1 ∧
      st1.ants.length = st.ants.length ∧
      st1.adjacency_matrix = st.adjacency_matrix ∧ st1.demands = st.demands ∧
      st1.capacity = st.capacity ∧ st1.cur_cycle = st.cur_cycle := by
  obtain ⟨ants1, hm, hlen1⟩ := mapM_some_of_all
    (fun p : Nat × Ant =>
      processAnt st.adjacency_matrix st.pheromones st.demands (rnds p.1)
        (2 * st.num_nodes + 1) p.2)
    st.ants.enum
    (by
      intro p hp
      obtain ⟨i, a⟩ := p
      obtain ⟨hilt, hai⟩ := List.mem_enum hp
      have hmem : a ∈ st.ants := by rw [hai]; exact List.getElem_mem _
      have ha := hants a hmem
      rw [ha]
      exact processAnt_success st.adjacency_matrix st.pheromones st.demands (rnds i)
        hadj htri hlen (hr i) st.capacity hn hcap)
  rw [Simulator.update_ants, hm]
  refine ⟨_, rfl, ?_, rfl, rfl, rfl, rfl⟩
  rw [show ({ st with ants := ants1 } : Simulator).ants = ants1 from rfl, hlen1,
    List.enum_length]

theorem try_find_best_tour_preserves (st : Simulator) :
    (st.try_find_best_tour).1.adjacency_matrix = st.adjacency_matrix ∧
    (st.try_find_best_tour).1.demands = st.demands ∧
    (st.try_find_best_tour).1.capacity = st.capacity ∧
    (st.try_find_best_tour).1.cur_cycle = st.cur_cycle ∧
    (st.try_find_best_tour).1.ants = st.ants := by
  simp only [Simulator.try_find_best_tour]
  by_cases h : (st.ants.foldl bestScanStep (false, st.best_tour_cost, st.best_tour)).1 = true
  · rw [if_pos h]
    exact ⟨rfl, rfl, rfl, rfl, rfl⟩
  · rw [if_neg h]
    by_cases h2 : st.cycles_since_improvement + 1 > MAX_CYCLES / 2
    · rw [if_pos h2]
      exact ⟨rfl, rfl, rfl, rfl, rfl⟩
    · rw [if_neg h2]
      exact ⟨rfl, rfl, rfl, rfl, rfl⟩

theorem update_pheromones_success (st : Simulator) (h3 : 3 ≤ st.ants.length) :
    ∃ st4, st.update_pheromones = some st4 ∧
      st4.adjacency_matrix = st.adjacency_matrix ∧ st4.demands = st.demands ∧
      st4.capacity = st.capacity ∧ st4.cur_cycle = st.cur_cycle := by
  have hlen : (st.ants.mergeSort
      (fun a1 a2 => decide (a1.path_cost ≤ a2.path_cost))).length = st.ants.length :=
    List.length_mergeSort _
  simp only [Simulator.update_pheromones]
  cases hsc : st.ants.mergeSort (fun a1 a2 => decide (a1.path_cost ≤ a2.path_cost)) with
  | nil => rw [hsc] at hlen; simp at hlen; omega
  | cons star rest =>
    cases rest with
    | nil => rw [hsc] at hlen; simp at hlen; omega
    | cons b1 rest2 =>
      cases rest2 with
      | nil => rw [hsc] at hlen; simp at hlen; omega
      | cons b2 rest3 => exact ⟨_, rfl, rfl, rfl, rfl, rfl⟩

theorem runCycleBody_success (st : Simulator) (rnds : Nat → Nat → ℚ)
    (hadj : ∀ u v, 0 ≤ st.adjacency_matrix.get u v)
    (htri : ∀ u v, st.adjacency_matrix.get u v ≤
      st.adjacency_matrix.get u 0 + st.adjacency_matrix.get 0 v)
    (hlen : st.demands.length = st.adjacency_matrix.size)
    (hcap : ∀ i, i < st.demands.length → st.demands.getD i 0 ≤ st.capacity)
    (hN : 3 ≤ st.num_nodes)
    (hr : ∀ i s, 0 ≤ rnds i s ∧ rnds i s < 1) :
    ∃ st2 c, runCycleBody st rnds (2 * st.num_nodes + 1) = some (st2, c) ∧
      st2.adjacency_matrix = st.adjacency_matrix ∧ st2.demands = st.demands ∧
      st2.capacity = st.capacity ∧ st2.cur_cycle = st.cur_cycle := by
  have hn0 : 0 < st.num_nodes := by omega
  obtain ⟨st1, hupd, hl1, ha1, hd1, hc1, hcy1⟩ :=
    update_ants_success st.reset_ants rnds hadj htri hlen hr hn0
      (fun a ha => List.eq_of_mem_replicate ha) hcap
  have hrn : st.reset_ants.num_nodes = st.num_nodes := rfl
  rw [hrn] at hupd
  have hred : runCycleBody st rnds (2 * st.num_nodes + 1) =
      (match st1.try_find_best_tour with
        | (st2, Continue.no) => some (st2, Continue.no)
        | (st2, Continue.yes) =>
          match st2.evaporate.update_pheromones with
          | none => none
          | some st4 => some (st4, Continue.yes)) := by
    rw [runCycleBody, hupd]
  obtain ⟨hta, htd, htc, htcy, htants⟩ := try_find_best_tour_preserves st1
  cases htf : st1.try_find_best_tour with
  | mk st2 c =>
    rw [htf] at hta htd htc htcy htants
    have hst1len : st1.ants.length = st.num_nodes := by
      rw [hl1]
      exact List.length_replicate _ _
    cases c with
    | no =>
      have hfinal : runCycleBody st rnds (2 * st.num_nodes + 1) =
          some (st2, Continue.no) := by
        rw [hred, htf]
      refine ⟨st2, Continue.no, hfinal, ?_, ?_, ?_, ?_⟩
      · rw [show ((st2, Continue.no).1) = st2 from rfl] at hta
        rw [hta, ha1]
        rfl
      · rw [show ((st2, Continue.no).1) = st2 from rfl] at htd
        rw [htd, hd1]
        rfl
      · rw [show ((st2, Continue.no).1) = st2 from rfl] at htc
        rw [htc, hc1]
        rfl
      · rw [show ((st2, Continue.no).1) = st2 from rfl] at htcy
        rw [htcy, hcy1]
        rfl
    | yes =>
      rw [show ((st2, Continue.yes).1) = st2 from rfl] at hta htd htc htcy htants
      obtain ⟨st4, hup, hua, hud, huc, hucy⟩ := update_pheromones_success st2.evaporate
        (by
          rw [show st2.evaporate.ants = st2.ants from rfl, htants, hst1len]
          exact hN)
      have hfinal : runCycleBody st rnds (2 * st.num_nodes + 1) =
          some (st4, Continue.yes) := by
        rw [hred, htf]
        show (match st2.evaporate.update_pheromones with
          | none => none
          | some st4 => some (st4, Continue.yes)) = some (st4, Continue.yes)
        rw [hup]
      refine ⟨st4, Continue.yes, hfinal, ?_, ?_, ?_, ?_⟩
      · rw [hua, show st2.evaporate.adjacency_matrix = st2.adjacency_matrix from rfl,
          hta, ha1]
        rfl
      · rw [hud, show st2.evaporate.demands = st2.demands from rfl, htd, hd1]
        rfl
      · rw [huc, show st2.evaporate.capacity = st2.capacity from rfl, htc, hc1]
        rfl
      · rw [hucy, show st2.evaporate.cur_cycle = st2.cur_cycle from rfl, htcy, hcy1]
        rfl

theorem runLoop_success (A : Matrix) (D : List Nat) (C : Nat)
    (rnds : Nat → Nat → Nat → ℚ)
    (hadj : ∀ u v, 0 ≤ A.get u v)
    (htri : ∀ u v, A.get u v ≤ A.get u 0 + A.get 0 v)
    (hlenD : D.length = A.size)
    (hcapD : ∀ i, i < D.length → D.getD i 0 ≤ C)
    (hN : 3 ≤ A.size)
    (hr : ∀ c i s, 0 ≤ rnds c i s ∧ rnds c i s < 1) :
    ∀ (fuel : Nat) (st : Simulator),
      st.adjacency_matrix = A → st.demands = D → st.capacity = C →
      st.cur_cycle < MAX_CYCLES → MAX_CYCLES ≤ st.cur_cycle + fuel →
      ∃ st', runLoop rnds (2 * A.size + 1) fuel st = some st' ∧
        st'.cur_cycle ≤ MAX_CYCLES := by
  intro fuel
  induction fuel with
  | zero =>
    intro st _ _ _ hcyc hfuel
    exact absurd hfuel (by omega)
  | succ f ih =>
    intro st hA hD hC hcyc hfuel
    simp only [runLoop]
    have hA1 : ({ st with cur_cycle := st.cur_cycle + 1 } : Simulator).adjacency_matrix =
      A := hA
    have hD1 : ({ st with cur_cycle := st.cur_cycle + 1 } : Simulator).demands = D := hD
    have hC1 : ({ st with cur_cycle := st.cur_cycle + 1 } : Simulator).capacity = C := hC
    by_cases hlt : st.cur_cycle + 1 < MAX_CYCLES
    · rw [if_pos hlt]
      obtain ⟨st2, c, hbody, hba, hbd, hbc, hbcy⟩ :=
        runCycleBody_success { st with cur_cycle := st.cur_cycle + 1 }
          (rnds (st.cur_cycle + 1))
          (by rw [hA1]; exact hadj)
          (by rw [hA1]; exact htri)
          (by rw [hD1, hA1]; exact hlenD)
          (by rw [hD1, hC1]; exact hcapD)
          (by show 3 ≤ ({ st with cur_cycle := st.cur_cycle + 1 } :
              Simulator).adjacency_matrix.size
              rw [hA1]; exact hN)
          (fun i s => hr (st.cur_cycle + 1) i s)
      have hnn1 : ({ st with cur_cycle := st.cur_cycle + 1 } : Simulator).num_nodes =
          A.size := by
        show ({ st with cur_cycle := st.cur_cycle + 1 } :
          Simulator).adjacency_matrix.size = A.size
        rw [hA1]
      rw [hnn1] at hbody
      rw [hbody]
      cases c with
      | no =>
        refine ⟨st2, rfl, ?_⟩
        rw [hbcy]
        show st.cur_cycle + 1 ≤ MAX_CYCLES
        omega
      | yes =>
        apply ih st2
        · rw [hba]; exact hA1
        · rw [hbd]; exact hD1
        · rw [hbc]; exact hC1
        · rw [hbcy]; exact hlt
        · rw [hbcy]
          show MAX_CYCLES ≤ st.cur_cycle + 1 + f
          omega
    · rw [if_neg hlt]
      refine ⟨_, rfl, ?_⟩
      show st.cur_cycle + 1 ≤ MAX_CYCLES
      omega

/-- C4 — amended: for a problem with at least three nodes (hence at least
three ants per cycle), a demands vector as long as the distance matrix with
every demand at most the vehicle capacity, nonnegative distances satisfying
the depot triangle inequality, and uniform draws in `[0,1)`, `Simulator::run`
terminates: with a per-ant step budget of `2·N + 1` moves the loop returns a
final state after at most `MAX_CYCLES = 150` cycles.  Each ant finishes
because every step either covers a new customer or returns the ant to the
depot, and from a full-capacity depot visit the capacity override cannot
fire. -/
theorem run_terminates (p : Problem) (rnds : Nat → Nat → Nat → ℚ)
    (hN : 3 ≤ p.adjacency_matrix.size)
    (hlen : p.demands.length = p.adjacency_matrix.size)
    (hadj : ∀ u v, 0 ≤ p.adjacency_matrix.get u v)
    (htri : ∀ u v, p.adjacency_matrix.get u v ≤
      p.adjacency_matrix.get u 0 + p.adjacency_matrix.get 0 v)
    (hcap : ∀ i, i < p.demands.length → p.demands.getD i 0 ≤ p.capacity)
    (hr : ∀ c i s, 0 ≤ rnds c i s ∧ rnds c i s < 1) :
    ∃ st', (Simulator.on p).run rnds (2 * p.adjacency_matrix.size + 1) = some st' ∧
      st'.cur_cycle ≤ MAX_CYCLES := by
  rw [Simulator.run]
  exact runLoop_success p.adjacency_matrix p.demands p.capacity rnds hadj htri hlen
    hcap hN hr MAX_CYCLES (Simulator.on p) rfl rfl rfl
    (by show (0 : Nat) < MAX_CYCLES; rw [MAX_CYCLES]; omega)
    (by show MAX_CYCLES ≤ 0 + MAX_CYCLES; omega)

/-- A three-node instance with unit distances off the diagonal. -/
def cAdjT : Matrix := ⟨3, fun i j => if i = j then 0 else 1⟩

/-- Demands of the three-node instance. -/
def cDem3 : List Nat := [0, 1, 1]

/-- The three-node problem. -/
def cProb3 : Problem := ⟨cAdjT, cDem3, 1⟩

theorem cAdjT_nonneg : ∀ u v, 0 ≤ cAdjT.get u v := by
  intro u v
  simp only [cAdjT, Matrix.get]
  split_ifs <;> norm_num

theorem cAdjT_triangle : ∀ u v, cAdjT.get u v ≤ cAdjT.get u 0 + cAdjT.get 0 v := by
  intro u v
  simp only [cAdjT, Matrix.get]
  split_ifs <;> first | (exfalso; omega) | norm_num

theorem run_terminates_witness :
    (3 ≤ cProb3.adjacency_matrix.size ∧
      cProb3.demands.length = cProb3.adjacency_matrix.size ∧
      (∀ i, i < cProb3.demands.length → cProb3.demands.getD i 0 ≤ cProb3.capacity)) ∧
    (∃ st', (Simulator.on cProb3).run (fun _ _ _ => 0)
        (2 * cProb3.adjacency_matrix.size + 1) = some st' ∧
      st'.cur_cycle ≤ MAX_CYCLES) :=
  ⟨⟨by decide, by decide, by decide⟩,
    run_terminates cProb3 (fun _ _ _ => 0) (by decide) (by decide)
      cAdjT_nonneg cAdjT_triangle (by decide)
      (fun c i s => ⟨le_refl 0, by norm_num⟩)⟩

/-- A single-node instance: only the depot. -/
def cProb1 : Problem := ⟨⟨1, fun _ _ => 0⟩, [0], 1⟩

/-- C4 counterexample: with one node the colony has a single ant, and the
reinforcement step dereferences `ants.get(1)`/`ants.get(2)` unconditionally,
so the very first cycle of `run` panics (modelled as `none`) even though the
problem is well formed in the claim's sense. -/
theorem run_single_node_panics :
    (0 < cProb1.adjacency_matrix.size ∧
      cProb1.demands.length = cProb1.adjacency_matrix.size ∧
      cProb1.demands.getD 0 0 = 0 ∧
      (∀ u v, cProb1.adjacency_matrix.get u v = cProb1.adjacency_matrix.get v u) ∧
      (∀ u, cProb1.adjacency_matrix.get u u = 0) ∧
      (∀ i, i < cProb1.demands.length → cProb1.demands.getD i 0 ≤ cProb1.capacity)) ∧
    (Simulator.on cProb1).run (fun _ _ _ => 0) 5 = none := by
  refine ⟨⟨by decide, by decide, by decide, fun u v => rfl, fun u => rfl, by decide⟩, ?_⟩
  show runLoop (fun _ _ _ => 0) 5 MAX_CYCLES (Simulator.on cProb1) = none
  rw [show MAX_CYCLES = 149 + 1 from rfl, runLoop]
  norm_num [Simulator.on, cProb1, runCycleBody, Simulator.reset_ants,
    Simulator.update_ants, Simulator.num_nodes, Matrix.size, processAnt,
    constructTour, Ant.new, Ant.done, Ant.complete, Ant.visit, Ant.cur_node,
    Ant.optimize_path, TwoOptStrategy.optimize, convert_to_multiple_paths,
    path_to_routes, routesFrom, optimize_path, findSwap, calc_path_length,
    Matrix.get, Matrix.new, Matrix.update, Matrix.set, init_pheromones,
    Simulator.try_find_best_tour, bestScanStep, Simulator.evaporate,
    Simulator.update_pheromones, List.mergeSort, BEST_TOUR_COST, MAX_CYCLES,
    List.replicate_succ, List.range_succ, List.range_zero, List.enum,
    List.enumFrom, List.mapM_cons, List.mapM_nil, List.mapM.loop,
    List.set_cons_zero]

end Aco
